import Mathlib

/-!
# Test-main generator of rules_go: a shallow embedding

Embedding of `go/tools/builders/generate_test_main.go` and
`go/tools/builders/flags.go`.

* Go strings are Lean `String`s, Go `int` is `Int` together with the range
  check of a 64-bit `int` wherever a value is produced by parsing.
* Go maps are association lists; the order in which a `range` statement visits
  the keys of a map is an explicit argument of `run`.
* The collaborators `filterFiles`, `os.Create`, `parser.ParseFile` and
  `doc.Examples` are inputs of `run` (the `World` structure and the `Examples`
  field of a parsed file); `run` starts after the flags have been parsed.
* A nil pointer dereference is the outcome `Status.panicked`.
* `strconv.Atoi`, `strings.Split`, `strings.HasPrefix`, `strings.HasSuffix` and
  `sort.Slice` are modelled after the Go library.
* `strconv.Quote`, which renders `%q`, and the reading of an interpreted string
  literal (`strconv.UnquoteChar`, `strconv.Unquote`) are modelled after the Go
  library on characters; the table `strconv.IsPrint` is a parameter.
* The global `build.Default.BuildTags` of `flags.go` is an explicit list of tags.
-/

namespace TestMain

/-! ## Library functions used by the generator and by the generated harness -/

namespace strings

/-- Pieces of `s` between the occurrences of the character `sep`, on character lists. -/
def splitAux (sep : Char) : List Char → List Char → List (List Char)
  | acc, [] => [acc.reverse]
  | acc, c :: cs => if c = sep then acc.reverse :: splitAux sep [] cs else splitAux sep (c :: acc) cs

/-- Go `strings.Split(s, sep)` for a one-character separator: the substrings of `s`
between the occurrences of `sep`; one more piece than there are separators. -/
def Split (s : String) (sep : Char) : List String :=
  (splitAux sep [] s.toList).map String.mk

/-- Go `strings.HasPrefix(s, prefix)`. -/
def HasPrefix (s pre : String) : Bool :=
  pre.toList.isPrefixOf s.toList

/-- Go `strings.HasSuffix(s, suffix)`. -/
def HasSuffix (s suf : String) : Bool :=
  suf.toList.isSuffixOf s.toList

/-- Go `strings.Join(elems, sep)`. -/
def Join (elems : List String) (sep : String) : String :=
  sep.intercalate elems

end strings

namespace strconv

/-- Value of a decimal digit character, `none` for any other character
(`ch -= '0'; if ch > 9` in Go). -/
def digitVal (c : Char) : Option Nat :=
  if '0' ≤ c ∧ c ≤ '9' then some (c.toNat - '0'.toNat) else none

/-- Accumulating loop `n = n*10 + int(ch)` over the digits; `none` on a non-digit. -/
def parseDigitsAux : Nat → List Char → Option Nat
  | n, [] => some n
  | n, c :: cs =>
    match digitVal c with
    | none => none
    | some d => parseDigitsAux (n * 10 + d) cs

/-- A non-empty run of decimal digits read as a natural number. -/
def parseDigits (cs : List Char) : Option Nat :=
  match cs with
  | [] => none
  | _ => parseDigitsAux 0 cs

/-- Go `strconv.Atoi` on a 64-bit platform: an optional single sign, then at least one
decimal digit, and the value has to fit an `int`. `none` stands for any error
(`ErrSyntax` or `ErrRange`). -/
def Atoi (s : String) : Option Int :=
  let cs := s.toList
  let neg : Bool := match cs with
    | '-' :: _ => true
    | _ => false
  let ds : List Char := match cs with
    | '-' :: r => r
    | '+' :: r => r
    | _ => cs
  match parseDigits ds with
  | none => none
  | some n =>
    if neg then (if n ≤ 2 ^ 63 then some (-(n : Int)) else none)
    else (if n < 2 ^ 63 then some (n : Int) else none)

end strconv

/-! ## The generated harness: `testsInShard` of `codeTpl` -/

/-- Process environment: the value of a variable, `none` when it is not set. -/
abbrev Env := String → Option String

/-- Go `os.Getenv`: the value of the variable, the empty string when it is not set. -/
def Getenv (env : Env) (key : String) : String :=
  (env key).getD ""

/-- The loop `for i, t := range allTests` of `testsInShard`: `tests` is the slice built
so far, `i` the index of the head of the remaining list. -/
def shardLoop {α : Type} (totalShards shardIndex : Int) : Nat → List α → List α → List α
  | _, [], tests => tests
  | i, t :: rest, tests =>
    if Int.tmod (i : Int) totalShards = shardIndex then
      shardLoop totalShards shardIndex (i + 1) rest (tests ++ [t])
    else
      shardLoop totalShards shardIndex (i + 1) rest tests

/-- Function `testsInShard` of the generated program; `allTests` is the package-level
slice of the same name, `env` the environment the harness runs in. -/
def testsInShard {α : Type} (allTests : List α) (env : Env) : List α :=
  match strconv.Atoi (Getenv env "TEST_TOTAL_SHARDS") with
  | none => allTests
  | some totalShards =>
    if totalShards ≤ 1 then allTests
    else
      match strconv.Atoi (Getenv env "TEST_SHARD_INDEX") with
      | none => allTests
      | some shardIndex =>
        if shardIndex < 0 then allTests
        else shardLoop totalShards shardIndex 0 allTests []

/-- Environment in which exactly the two sharding variables are set. -/
def shardEnv (total index : String) : Env := fun key =>
  if key = "TEST_TOTAL_SHARDS" then some total
  else if key = "TEST_SHARD_INDEX" then some index
  else none

/-! ## `go/ast` and `go/doc`, as far as `run` inspects them -/

namespace ast

/-- Expression node `ast.Expr`: the three kinds `run` tells apart, and any other node. -/
inductive Expr where
  | Ident (Name : String)
  | SelectorExpr (X : Expr) (Sel : String)
  | StarExpr (X : Expr)
  | Other
  deriving DecidableEq, Repr

/-- One entry `ast.Field` of a field list: the names declared together, and their type.
`a, b *testing.T` is one field with two names; an unnamed parameter has no name. -/
structure Field where
  Names : List String
  Typ : Expr
  deriving DecidableEq, Repr

/-- Number of parameters or results a field list stands for (`FieldList.NumFields`):
a field counts once per name, an unnamed field counts once. -/
def NumFields (l : List Field) : Nat :=
  (l.map (fun g => if g.Names.length = 0 then 1 else g.Names.length)).sum

/-- Function signature `ast.FuncType`: `Params.List`, and `Results` (nil, or its `List`). -/
structure FuncType where
  Params : List Field
  Results : Option (List Field)
  deriving DecidableEq, Repr

/-- Function declaration `ast.FuncDecl`: `Recv` (nil for a function), `Name.Name`, `Type`. -/
structure FuncDecl where
  Recv : Option (List Field)
  Name : String
  Typ : FuncType
  deriving DecidableEq, Repr

/-- Top-level declaration `ast.Decl`: a function declaration or anything else. -/
inductive Decl where
  | func (fn : FuncDecl)
  | gen
  deriving DecidableEq, Repr

end ast

namespace doc

/-- Extracted example `doc.Example`: the fields `run` reads, and `Order`, the position of
the example in the source ("original source code order"). -/
structure Example where
  Name : String
  Output : String
  Unordered : Bool
  EmptyOutput : Bool
  Order : Nat
  deriving DecidableEq, Repr

end doc

/-- Parsed file `*ast.File`: the package name `Name.String()`, the declarations `Decls`,
and in `Examples` what `doc.Examples` returns for the file ("the examples found in
testFiles, sorted by Name field"). -/
structure File where
  Name : String
  Decls : List ast.Decl
  Examples : List doc.Example
  deriving DecidableEq, Repr

/-! ## Template data -/

/-- An import of the generated program. -/
structure Import where
  Name : String
  Path : String
  deriving DecidableEq, Repr

/-- A test or a benchmark of the generated program. -/
structure TestCase where
  Package : String
  Name : String
  deriving DecidableEq, Repr

/-- An example of the generated program. -/
structure Example where
  Package : String
  Name : String
  Output : String
  Unordered : Bool
  deriving DecidableEq, Repr

/-- Cases holds template data. An entry of `Imports` is a pointer: `none` is nil. -/
structure Cases where
  RunDir : String
  Imports : List (Option Import)
  Tests : List TestCase
  Benchmarks : List TestCase
  Examples : List Example
  TestMain : String
  Coverage : Bool
  deriving DecidableEq, Repr

/-! ## Go maps -/

/-- A Go map with string keys: the assignments made so far, the latest first. -/
abbrev GoMap (V : Type) := List (String × V)

/-- Assignment `m[k] = v`. -/
def GoMap.set {V : Type} (m : GoMap V) (k : String) (v : V) : GoMap V :=
  (k, v) :: m

/-- Lookup `m[k]`; `none` when the key is missing. -/
def GoMap.get {V : Type} (m : GoMap V) (k : String) : Option V :=
  m.lookup k

/-- The map `pkgs` of `run` (every value is `true`): its keys, in the order they were
first set. `pkgs[pkg] = true` is `markUsed`. -/
def markUsed (pkgs : List String) (pkg : String) : List String :=
  if pkg ∈ pkgs then pkgs else pkgs ++ [pkg]

/-! ## `sort.Slice` -/

/-- Inner loop of insertion sort, `for j := i; j > a && less(j, j-1); j-- \x7b swap \x7d`:
the second argument is the sorted part `data[a:i]` reversed, `x` is `data[i]`; the result
is `data[a:i+1]` reversed. `none` when `less` panics. -/
def insertLoop {α : Type} (less : α → α → Option Bool) (x : α) : List α → Option (List α)
  | [] => some [x]
  | y :: ys =>
    match less x y with
    | none => none
    | some true => (insertLoop less x ys).map (fun r => y :: r)
    | some false => some (x :: y :: ys)

/-- Outer loop of insertion sort: `done` is the sorted part reversed. -/
def insertionSortAux {α : Type} (less : α → α → Option Bool) : List α → List α → Option (List α)
  | done, [] => some done.reverse
  | done, x :: rest =>
    match insertLoop less x done with
    | none => none
    | some done1 => insertionSortAux less done1 rest

/-- Go `sort.Slice(x, less)` as the insertion sort the library runs on short slices;
`less` gets the two elements rather than their indices. `none` when `less` panics. -/
def sortSlice {α : Type} (less : α → α → Option Bool) (x : List α) : Option (List α) :=
  match x with
  | [] => some []
  | x0 :: rest => insertionSortAux less [x0] rest

/-- The comparison `cases.Imports[i].Name < cases.Imports[j].Name`, the lexicographic
order of Go strings; `none` is the nil pointer dereference on a missing entry. -/
def importLess (a b : Option Import) : Option Bool :=
  match a, b with
  | some x, some y => some (decide (x.Name.toList < y.Name.toList))
  | _, _ => none

/-! ## `run` -/

/-- Analysis state of the loop over the files: the template data and the map `pkgs`. -/
structure State where
  cases : Cases
  pkgs : List String
  deriving DecidableEq, Repr

/-- The block `if strings.HasPrefix(fn.Name.Name, "Benchmark")` of the declaration loop. -/
def benchmarkBlock (pkg : String) (fn : ast.FuncDecl) (sel : String) (st : State) : State :=
  if strings.HasPrefix fn.Name "Benchmark" then
    if sel ≠ "B" then st
    else
      { pkgs := markUsed st.pkgs pkg
        cases := { st.cases with
          Benchmarks := st.cases.Benchmarks ++ [{ Package := pkg, Name := fn.Name }] } }
  else st

/-- The block `if strings.HasPrefix(fn.Name.Name, "Test")` of the declaration loop, followed
by the benchmark block unless it ran `continue`. -/
def testBlock (pkg : String) (fn : ast.FuncDecl) (sel : String) (st : State) : State :=
  if strings.HasPrefix fn.Name "Test" then
    if sel ≠ "T" then st
    else
      benchmarkBlock pkg fn sel
        { pkgs := markUsed st.pkgs pkg
          cases := { st.cases with
            Tests := st.cases.Tests ++ [{ Package := pkg, Name := fn.Name }] } }
  else benchmarkBlock pkg fn sel st

/-- Body of `for _, d := range parse.Decls`. -/
def analyseDecl (pkg : String) (st : State) (d : ast.Decl) : State :=
  match d with
  | .gen => st
  | .func fn =>
    if fn.Recv.isSome then st
    else if fn.Name = "TestMain" then
      { pkgs := markUsed st.pkgs pkg
        cases := { st.cases with TestMain := pkg ++ "." ++ fn.Name } }
    else if fn.Typ.Params.length ≠ 1 then st
    else if fn.Typ.Results.isSome then st
    else
      match fn.Typ.Params with
      | p :: _ =>
        match p.Typ with
        | .StarExpr (.SelectorExpr _ sel) => testBlock pkg fn sel st
        | _ => st
      | [] => st

/-- Body of `for _, e := range doc.Examples(parse)`. -/
def analyseExample (pkg : String) (st : State) (e : doc.Example) : State :=
  if e.Output = "" ∧ e.EmptyOutput = false then st
  else
    { pkgs := markUsed st.pkgs pkg
      cases := { st.cases with
        Examples := st.cases.Examples ++
          [{ Name := "Example" ++ e.Name, Package := pkg, Output := e.Output,
             Unordered := e.Unordered }] } }

/-- The package reference `pkg` of a file: `pkg := sourceMap[f]`, then `pkg += "_test"`
when the package name of the file ends in `_test`. -/
def effectivePkg (sourceMap : GoMap String) (f : String) (parse : File) : String :=
  let pkg := (sourceMap.get f).getD ""
  if strings.HasSuffix parse.Name "_test" then pkg ++ "_test" else pkg

/-- Body of `for _, f := range filenames` after a successful parse. -/
def analyseFile (sourceMap : GoMap String) (st : State) (f : String) (parse : File) : State :=
  let pkg := effectivePkg sourceMap f parse
  parse.Decls.foldl (analyseDecl pkg) (parse.Examples.foldl (analyseExample pkg) st)

/-- Errors `run` returns. -/
inductive RunError where
  | invalidImport (imp : String)
  | invalidSource (s : String)
  | filterFiles (msg : String)
  | osCreate (out : String) (msg : String)
  | parseFile (f : String) (msg : String)
  | templateExecute (msg : String)
  deriving DecidableEq, Repr

/-- The loop `for _, f := range filenames`: `log` lists the files handed to
`parser.ParseFile` so far. The result is the error of the first file that fails to parse,
or the final state, with the files that were handed to the parser. -/
def analyseFiles (ParseFile : String → Except String File) (sourceMap : GoMap String) :
    State → List String → List String → Except RunError State × List String
  | st, log, [] => (.ok st, log)
  | st, log, f :: fs =>
    match ParseFile f with
    | .error msg => (.error (.parseFile f msg), log ++ [f])
    | .ok parse => analyseFiles ParseFile sourceMap (analyseFile sourceMap st f parse) (log ++ [f]) fs

/-- The loop `for _, imp := range imports`. -/
def processImports : GoMap Import → List String → Except RunError (GoMap Import)
  | importMap, [] => .ok importMap
  | importMap, imp :: rest =>
    match strings.Split imp '=' with
    | [name, path] => processImports (importMap.set name { Name := name, Path := path }) rest
    | _ => .error (.invalidImport imp)

/-- The loop `for _, s := range sources`: the result is `sourceList` and `sourceMap`. -/
def processSources : List String → GoMap String → List String →
    Except RunError (List String × GoMap String)
  | sourceList, sourceMap, [] => .ok (sourceList, sourceMap)
  | sourceList, sourceMap, s :: rest =>
    match strings.Split s '=' with
    | [name, path] => processSources (sourceList ++ [path]) (sourceMap.set path name) rest
    | _ => .error (.invalidSource s)

/-- The loop `for pkg := range pkgs` appending `importMap[pkg]`, then `sort.Slice`:
`order` is the order in which the keys of `pkgs` are visited. `none` when the
comparison panics. -/
def finalizeImports (importMap : GoMap Import) (order : List String) :
    Option (List (Option Import)) :=
  sortSlice importLess (order.map importMap.get)

/-- Values of the command-line flags after `flags.Parse`. -/
structure Flags where
  rundir : String
  output : String
  coverage : Bool
  imports : List String
  sources : List String
  deriving DecidableEq, Repr

/-- What `run` calls outside of itself: `filterFiles` on the source list, `os.Create`
(its error, if any), `parser.ParseFile`, the order in which `range` visits the keys of
`pkgs`, and the writes of the template to the sink (their error, if any). -/
structure World where
  filterFiles : List String → Except String (List String)
  Create : String → Option String
  ParseFile : String → Except String File
  rangeOrder : List String → List String
  Write : Cases → Option String

/-- How a call of `run` ends. -/
inductive Status where
  | ok
  | error (e : RunError)
  | panicked
  deriving DecidableEq, Repr

/-- Result of `run`: how it ended, the name `os.Create` was called with (if it was called),
the files handed to the parser, and the data the template was executed on (if it was). -/
structure RunResult where
  status : Status
  created : Option String
  parsed : List String
  executed : Option Cases
  deriving DecidableEq, Repr

/-- The value of `RunDir`: every backslash doubled (`filepath.FromSlash` is the identity
where the separator is a slash). -/
def escapeRunDir (rundir : String) : String :=
  String.mk (rundir.toList.flatMap (fun c => if c = '\\' then ['\\', '\\'] else [c]))

/-- The state of `run` before the first file: the template data with the run directory and
the coverage flag, and the empty map `pkgs`. -/
def initialState (fl : Flags) : State :=
  { cases :=
      { RunDir := escapeRunDir fl.rundir, Imports := [], Tests := [], Benchmarks := [],
        Examples := [], TestMain := "", Coverage := fl.coverage }
    pkgs := [] }

/-- Function `run` from the processing of the import arguments on. -/
def run (w : World) (fl : Flags) : RunResult :=
  match processImports [] fl.imports with
  | .error e => ⟨.error e, none, [], none⟩
  | .ok importMap =>
    match processSources [] [] fl.sources with
    | .error e => ⟨.error e, none, [], none⟩
    | .ok (sourceList, sourceMap) =>
      match w.filterFiles sourceList with
      | .error msg => ⟨.error (.filterFiles msg), none, [], none⟩
      | .ok filenames =>
        let created : Option String := if fl.output ≠ "" then some fl.output else none
        match (if fl.output ≠ "" then w.Create fl.output else none) with
        | some msg => ⟨.error (.osCreate fl.output msg), created, [], none⟩
        | none =>
          match analyseFiles w.ParseFile sourceMap (initialState fl) [] filenames with
          | (.error e, parsed) => ⟨.error e, created, parsed, none⟩
          | (.ok st, parsed) =>
            match finalizeImports importMap (w.rangeOrder st.pkgs) with
            | none => ⟨.panicked, created, parsed, none⟩
            | some imports =>
              let final : Cases := { st.cases with Imports := imports }
              if imports.any Option.isNone then
                ⟨.error (.templateExecute "nil pointer evaluating *main.Import.Name"),
                  created, parsed, some final⟩
              else
                match w.Write final with
                | some msg => ⟨.error (.templateExecute msg), created, parsed, some final⟩
                | none => ⟨.ok, created, parsed, some final⟩

/-! ## What the loops of `run` include: the conditions of the source, as predicates -/

/-- The signature checks of the declaration loop, in one predicate: `Params.List` has
length one, `Results` is nil, and the type of the entry is `*<something>.<typeName>`. -/
def shapeOK (typeName : String) (fn : ast.FuncDecl) : Bool :=
  match fn.Typ.Params, fn.Typ.Results with
  | [p], none =>
    match p.Typ with
    | .StarExpr (.SelectorExpr _ sel) => sel == typeName
    | _ => false
  | _, _ => false

/-- The declaration is registered as `TestMain`: no receiver and the name `TestMain`. -/
def isTestMainFunc (fn : ast.FuncDecl) : Bool :=
  fn.Recv.isNone && fn.Name == "TestMain"

/-- The declaration is appended to `Tests`. -/
def isTestFunc (fn : ast.FuncDecl) : Bool :=
  fn.Recv.isNone && fn.Name != "TestMain" && strings.HasPrefix fn.Name "Test" && shapeOK "T" fn

/-- The declaration is appended to `Benchmarks`. -/
def isBenchmarkFunc (fn : ast.FuncDecl) : Bool :=
  fn.Recv.isNone && strings.HasPrefix fn.Name "Benchmark" && shapeOK "B" fn

/-- The example is appended to `Examples`. -/
def isIncludedExample (e : doc.Example) : Bool :=
  e.Output != "" || e.EmptyOutput

/-- The tests of one declaration. -/
def declTests (pkg : String) : ast.Decl → List TestCase
  | .func fn => if isTestFunc fn then [{ Package := pkg, Name := fn.Name }] else []
  | .gen => []

/-- The benchmarks of one declaration. -/
def declBenchmarks (pkg : String) : ast.Decl → List TestCase
  | .func fn => if isBenchmarkFunc fn then [{ Package := pkg, Name := fn.Name }] else []
  | .gen => []

/-- The declaration is a top-level `TestMain`. -/
def declIsTestMain : ast.Decl → Bool
  | .func fn => isTestMainFunc fn
  | .gen => false

/-- The declaration marks the package reference of its file as used. -/
def declContributes : ast.Decl → Bool
  | .func fn => isTestMainFunc fn || isTestFunc fn || isBenchmarkFunc fn
  | .gen => false

/-- The tests of a file, in declaration order. -/
def fileTests (pkg : String) (parse : File) : List TestCase :=
  parse.Decls.flatMap (declTests pkg)

/-- The benchmarks of a file, in declaration order. -/
def fileBenchmarks (pkg : String) (parse : File) : List TestCase :=
  parse.Decls.flatMap (declBenchmarks pkg)

/-- The examples of a file, in the order `doc.Examples` returned them. -/
def fileExamples (pkg : String) (parse : File) : List Example :=
  (parse.Examples.filter isIncludedExample).map
    (fun e => { Name := "Example" ++ e.Name, Package := pkg, Output := e.Output,
                Unordered := e.Unordered })

/-- The file has an included example, a top-level `TestMain`, a test or a benchmark. -/
def fileContributes (parse : File) : Bool :=
  parse.Examples.any isIncludedExample || parse.Decls.any declContributes

/-- The state after the loop over files that all parse: each entry is a file name with
what `parser.ParseFile` returned for it. -/
def analyseParsed (sourceMap : GoMap String) (st : State) (files : List (String × File)) :
    State :=
  files.foldl (fun s fp => analyseFile sourceMap s fp.1 fp.2) st

/-- Both entries are present and the alias of the first is strictly below the alias of
the second. -/
def aliasBefore : Option Import → Option Import → Prop
  | some x, some y => x.Name.toList < y.Name.toList
  | _, _ => False

instance aliasBeforeDecidable (a b : Option Import) : Decidable (aliasBefore a b) :=
  match a, b with
  | some x, some y => inferInstanceAs (Decidable (x.Name.toList < y.Name.toList))
  | some _, none => isFalse (fun h => h)
  | none, _ => isFalse (fun h => by cases b <;> exact h)

/-- The alias occurs in the import list: some present entry has this name. -/
def aliasIn (a : String) (imports : List (Option Import)) : Prop :=
  ∃ imp, some imp ∈ imports ∧ imp.Name = a

/-! ## Concrete declarations, files and runs -/

/-- The type `*testing.T`. -/
def starTestingT : ast.Expr := .StarExpr (.SelectorExpr (.Ident "testing") "T")

/-- The type `*testing.B`. -/
def starTestingB : ast.Expr := .StarExpr (.SelectorExpr (.Ident "testing") "B")

/-- The function `func TestFoo(t *testing.T)`. -/
def funcTestFoo : ast.FuncDecl :=
  { Recv := none, Name := "TestFoo",
    Typ := { Params := [{ Names := ["t"], Typ := starTestingT }], Results := none } }

/-- The function `func TestBar(t *testing.T)`. -/
def funcTestBar : ast.FuncDecl :=
  { Recv := none, Name := "TestBar",
    Typ := { Params := [{ Names := ["t"], Typ := starTestingT }], Results := none } }

/-- The function `func BenchmarkFoo(b *testing.B)`. -/
def funcBenchmarkFoo : ast.FuncDecl :=
  { Recv := none, Name := "BenchmarkFoo",
    Typ := { Params := [{ Names := ["b"], Typ := starTestingB }], Results := none } }

/-- The function `func Testify()`. -/
def funcTestify : ast.FuncDecl :=
  { Recv := none, Name := "Testify", Typ := { Params := [], Results := none } }

/-- The function `func BenchmarkFoo(b *testing.B) error`. -/
def funcBenchmarkFooError : ast.FuncDecl :=
  { Recv := none, Name := "BenchmarkFoo",
    Typ := { Params := [{ Names := ["b"], Typ := starTestingB }],
             Results := some [{ Names := [], Typ := .Ident "error" }] } }

/-- The function `func TestPair(a, b *testing.T)`: one field, two parameters. -/
def funcTestPair : ast.FuncDecl :=
  { Recv := none, Name := "TestPair",
    Typ := { Params := [{ Names := ["a", "b"], Typ := starTestingT }], Results := none } }

/-- The function `func BenchmarkPair(a, b *testing.B)`: one field, two parameters. -/
def funcBenchmarkPair : ast.FuncDecl :=
  { Recv := none, Name := "BenchmarkPair",
    Typ := { Params := [{ Names := ["a", "b"], Typ := starTestingB }], Results := none } }

/-- The function `func TestUnit(t *testing.T) ()`: an empty result list in parentheses,
for which the parser returns a field list that is not nil and has no entry. -/
def funcTestUnit : ast.FuncDecl :=
  { Recv := none, Name := "TestUnit",
    Typ := { Params := [{ Names := ["t"], Typ := starTestingT }], Results := some [] } }

/-- The function `func BenchmarkUnit(b *testing.B) ()`. -/
def funcBenchmarkUnit : ast.FuncDecl :=
  { Recv := none, Name := "BenchmarkUnit",
    Typ := { Params := [{ Names := ["b"], Typ := starTestingB }], Results := some [] } }

/-- The function `func ExampleA()`. -/
def funcExampleA : ast.FuncDecl :=
  { Recv := none, Name := "ExampleA", Typ := { Params := [], Results := none } }

/-- The function `func ExampleB()`. -/
def funcExampleB : ast.FuncDecl :=
  { Recv := none, Name := "ExampleB", Typ := { Params := [], Results := none } }

/-- File `example_test.go`: package `lib`, declaring `ExampleB` (with the comment
`// Output: b`) before `ExampleA` (with the comment `// Output: a`); `doc.Examples` returns
the two examples sorted by name, with their source positions in `Order`. -/
def examplesFile : File :=
  { Name := "lib"
    Decls := [.func funcExampleB, .func funcExampleA]
    Examples :=
      [{ Name := "A", Output := "a\n", Unordered := false, EmptyOutput := false, Order := 1 },
       { Name := "B", Output := "b\n", Unordered := false, EmptyOutput := false, Order := 0 }] }

/-- Flag values with nothing to import and nothing to analyse. -/
def emptyFlags : Flags :=
  { rundir := ".", output := "", coverage := false, imports := [], sources := [] }

/-- File `lib.go`: package `lib` with `TestFoo`. -/
def libFile : File := { Name := "lib", Decls := [.func funcTestFoo], Examples := [] }

/-- File `lib_external_test.go`: package `lib_test` with `TestBar`. -/
def libExternalTestFile : File :=
  { Name := "lib_test", Decls := [.func funcTestBar], Examples := [] }

/-- File `helpers.go`: package `lib` whose only functions are `Testify()` and
`BenchmarkFoo(b *testing.B) error`. -/
def helpersFile : File :=
  { Name := "lib", Decls := [.func funcTestify, .func funcBenchmarkFooError], Examples := [] }

/-- A world with the two files of the scenario and `helpers.go`, in which nothing fails and
the keys of `pkgs` are visited in the reverse of the order they were set. -/
def scenarioWorld : World :=
  { filterFiles := fun l => .ok l
    Create := fun _ => none
    ParseFile := fun f =>
      if f = "lib.go" then .ok libFile
      else if f = "lib_external_test.go" then .ok libExternalTestFile
      else if f = "helpers.go" then .ok helpersFile
      else .error "no such file"
    rangeOrder := List.reverse
    Write := fun _ => none }

/-- The scenario: `lib.go` and `lib_external_test.go` under the alias `x`, with `x` and
`x_test` supplied for the same path. -/
def scenarioFlags : Flags :=
  { rundir := ".", output := "", coverage := false
    imports := ["x=example.com/lib", "x_test=example.com/lib"]
    sources := ["x=lib.go", "x=lib_external_test.go"] }

/-- Only the external test file, and only the alias `x` supplied. -/
def externalOnlyFlags : Flags :=
  { rundir := ".", output := "", coverage := false
    imports := ["x=example.com/lib"]
    sources := ["x=lib_external_test.go"] }

/-- Both files of the scenario, and only the alias `x` supplied. -/
def missingAliasFlags : Flags :=
  { rundir := ".", output := "", coverage := false
    imports := ["x=example.com/lib"]
    sources := ["x=lib.go", "x=lib_external_test.go"] }

/-- The template data of the scenario. -/
def scenarioCases : Cases :=
  { RunDir := "."
    Imports := [some { Name := "x", Path := "example.com/lib" },
                some { Name := "x_test", Path := "example.com/lib" }]
    Tests := [{ Package := "x", Name := "TestFoo" }, { Package := "x_test", Name := "TestBar" }]
    Benchmarks := []
    Examples := []
    TestMain := ""
    Coverage := false }

/-- The two parsed files of the scenario with their names, in processing order. -/
def scenarioFiles : List (String × File) :=
  [("lib.go", libFile), ("lib_external_test.go", libExternalTestFile)]

/-- The source map of the scenario: both files under the alias `x`. -/
def scenarioSourceMap : GoMap String :=
  [("lib_external_test.go", "x"), ("lib.go", "x")]

/-- The import map of the scenario. -/
def scenarioImportMap : GoMap Import :=
  [("x_test", { Name := "x_test", Path := "example.com/lib" }),
   ("x", { Name := "x", Path := "example.com/lib" })]

/-! ## Concrete declarations and files with `TestMain`, methods and examples -/

/-- The function `func TestMain(m *testing.M)`. -/
def funcTestMain : ast.FuncDecl :=
  { Recv := none, Name := "TestMain",
    Typ := { Params := [{ Names := ["m"],
                          Typ := .StarExpr (.SelectorExpr (.Ident "testing") "M") }],
             Results := none } }

/-- The function `func TestMain() error`: the reserved name with another signature. -/
def funcTestMainOdd : ast.FuncDecl :=
  { Recv := none, Name := "TestMain",
    Typ := { Params := [], Results := some [{ Names := [], Typ := .Ident "error" }] } }

/-- The method `func (s *Suite) TestFoo(t *testing.T)`. -/
def methodTestFoo : ast.FuncDecl :=
  { Recv := some [{ Names := ["s"], Typ := .StarExpr (.Ident "Suite") }], Name := "TestFoo",
    Typ := { Params := [{ Names := ["t"], Typ := starTestingT }], Results := none } }

/-- File `a_test.go`: package `lib` with `TestMain(m *testing.M)`. -/
def mainFileA : File := { Name := "lib", Decls := [.func funcTestMain], Examples := [] }

/-- File `b_test.go`: package `lib_test` with `TestMain() error` and `TestBar`. -/
def mainFileB : File :=
  { Name := "lib_test", Decls := [.func funcTestMainOdd, .func funcTestBar], Examples := [] }

/-- A world with `a_test.go` and `b_test.go`, in which nothing else fails. -/
def mainWorld : World :=
  { filterFiles := fun l => .ok l
    Create := fun _ => none
    ParseFile := fun f =>
      if f = "a_test.go" then .ok mainFileA
      else if f = "b_test.go" then .ok mainFileB
      else .error "no such file"
    rangeOrder := List.reverse
    Write := fun _ => none }

/-- Both files with `TestMain` under the alias `x`, with `x` and `x_test` supplied. -/
def mainFlags : Flags :=
  { rundir := ".", output := "", coverage := false
    imports := ["x=example.com/lib", "x_test=example.com/lib"]
    sources := ["x=a_test.go", "x=b_test.go"] }

/-- The two parsed files with `TestMain` with their names, in processing order. -/
def mainFiles : List (String × File) :=
  [("a_test.go", mainFileA), ("b_test.go", mainFileB)]

/-- The source map of `mainFlags`. -/
def mainSourceMap : GoMap String := [("b_test.go", "x"), ("a_test.go", "x")]

/-- An example with output, as `doc.Examples` returns it for `func ExampleHello()` ending
in the comment `// Output: hello`. -/
def exampleHello : doc.Example :=
  { Name := "Hello", Output := "hello\n", Unordered := false, EmptyOutput := false, Order := 0 }

/-- A world in which `lib.go` and `lib_external_test.go` parse and `broken.go` does not,
and the output file can be created. -/
def brokenWorld : World :=
  { filterFiles := fun l => .ok l
    Create := fun _ => none
    ParseFile := fun f =>
      if f = "lib.go" then .ok libFile
      else if f = "lib_external_test.go" then .ok libExternalTestFile
      else .error "expected declaration"
    rangeOrder := List.reverse
    Write := fun _ => none }

/-- The output file `main.go` is requested, and `broken.go` stands between the two files
of the scenario. -/
def brokenFlags : Flags :=
  { rundir := ".", output := "main.go", coverage := false
    imports := ["x=example.com/lib", "x_test=example.com/lib"]
    sources := ["x=lib.go", "x=broken.go", "x=lib_external_test.go"] }

/-- Option values of which `x` (an import) and `y=b=c` (a source) do not split into two
parts. -/
def malformedFlags : Flags :=
  { rundir := ".", output := "main.go", coverage := false
    imports := ["a=example.com/a", "x", "b"]
    sources := ["y=b=c"] }

/-! ## `flags.go`: the build tags -/

/-- Method `Set` of `tagFlag`: `BuildTags` is the value of `build.Default.BuildTags` before
the call; the result is the returned error (always nil) and the value after the call. -/
def tagFlagSet (BuildTags : List String) (opt : String) : Option String × List String :=
  let tags := strings.Split opt ','
  (none, BuildTags ++ tags)

/-- Method `String` of `tagFlag`, on the value of `build.Default.BuildTags`. -/
def tagFlagString (BuildTags : List String) : String :=
  strings.Join BuildTags ","

/-! ## Option values and argument order -/

/-- The first part of an option value: the alias of `alias=path`. -/
def optionAlias (v : String) : String :=
  (strings.Split v '=').headD ""

/-- The second part of an option value: the path of `alias=path`. -/
def optionPath (v : String) : String :=
  (strings.Split v '=').tail.headD ""

/-- The world of the scenario with the keys of `pkgs` visited in the order they were
set. -/
def scenarioWorldInOrder : World :=
  { scenarioWorld with rangeOrder := fun ks => ks }

/-- The options of the scenario in another order. -/
def scenarioFlagsSwapped : Flags :=
  { rundir := ".", output := "", coverage := false
    imports := ["x_test=example.com/lib", "x=example.com/lib"]
    sources := ["x=lib_external_test.go", "x=lib.go"] }

/-- The template data of the scenario with its options in the other order: the tests are
found in the other order. -/
def scenarioCasesSwapped : Cases :=
  { scenarioCases with
    Tests := [{ Package := "x_test", Name := "TestBar" }, { Package := "x", Name := "TestFoo" }] }

/-- The file `lib.go` given twice, under the aliases `x` and `y`, in this order. -/
def twiceFlags : Flags :=
  { rundir := ".", output := "", coverage := false
    imports := ["x=example.com/x", "y=example.com/y"]
    sources := ["x=lib.go", "y=lib.go"] }

/-- The file `lib.go` given twice, under the aliases `y` and `x`, in this order. -/
def twiceFlagsSwapped : Flags :=
  { rundir := ".", output := "", coverage := false
    imports := ["x=example.com/x", "y=example.com/y"]
    sources := ["y=lib.go", "x=lib.go"] }

/-! ## The string literal of an expected output: `printf "%q"` -/

namespace strconv

/-- The double quote character. -/
def dquote : Char := Char.ofNat 34

/-- The backslash character. -/
def backslash : Char := Char.ofNat 92

/-- The line feed character. -/
def linefeed : Char := Char.ofNat 10

/-- The table `lowerhex`, indexed by a value below 16. -/
def lowerhex (d : Nat) : Char :=
  "0123456789abcdef".toList.getD d '0'

/-- The loop `for s := 4*(n-1); s >= 0; s -= 4` appending `lowerhex[r>>s & 0xF]`: the `n`
low hexadecimal digits of `r`, the most significant first. -/
def hexDigits : Nat → Nat → List Char
  | 0, _ => []
  | n + 1, r => lowerhex (r / 16 ^ n % 16) :: hexDigits n r

/-- Go `appendEscapedRune` for the quote `"`, as `strconv.Quote` calls it: the text that
stands for the character `r` in the literal. `IsPrint` is the table `strconv.IsPrint`. -/
def appendEscapedRune (IsPrint : Char → Bool) (r : Char) : List Char :=
  if r = dquote ∨ r = backslash then [backslash, r]
  else if IsPrint r then [r]
  else if r.toNat = 7 then [backslash, 'a']
  else if r.toNat = 8 then [backslash, 'b']
  else if r.toNat = 12 then [backslash, 'f']
  else if r.toNat = 10 then [backslash, 'n']
  else if r.toNat = 13 then [backslash, 'r']
  else if r.toNat = 9 then [backslash, 't']
  else if r.toNat = 11 then [backslash, 'v']
  else if r.toNat < 32 ∨ r.toNat = 127 then backslash :: 'x' :: hexDigits 2 r.toNat
  else if r.toNat < 65536 then backslash :: 'u' :: hexDigits 4 r.toNat
  else backslash :: 'U' :: hexDigits 8 r.toNat

/-- Go `strconv.Quote`, which renders `%q`: a double-quoted string literal for `s`. -/
def Quote (IsPrint : Char → Bool) (s : String) : String :=
  String.mk (dquote :: s.toList.flatMap (appendEscapedRune IsPrint) ++ [dquote])

/-- Go `unhex`: the value of a hexadecimal digit. -/
def unhex (c : Char) : Option Nat :=
  if '0' ≤ c ∧ c ≤ '9' then some (c.toNat - '0'.toNat)
  else if 'a' ≤ c ∧ c ≤ 'f' then some (c.toNat - 'a'.toNat + 10)
  else if 'A' ≤ c ∧ c ≤ 'F' then some (c.toNat - 'A'.toNat + 10)
  else none

/-- The loop `v = v<<4 | x` over hexadecimal digits; `none` on any other character. -/
def hexValue : Nat → List Char → Option Nat
  | v, [] => some v
  | v, c :: cs =>
    match unhex c with
    | none => none
    | some x => hexValue (v * 16 + x) cs

/-- The loop `v = (v << 3) | x` over octal digits; `none` on any other character. -/
def octValue : Nat → List Char → Option Nat
  | v, [] => some v
  | v, c :: cs =>
    if '0' ≤ c ∧ c ≤ '7' then octValue (v * 8 + (c.toNat - '0'.toNat)) cs else none

/-- The character with the given code point; `none` for a surrogate half or a value above
the last code point, which no escape may denote. -/
def runeOf (v : Nat) : Option Char :=
  if v.isValidChar then some (Char.ofNat v) else none

/-- The character that is the given byte on its own; `none` for a byte that is not a whole
character (a value from 128 on), which a `String` cannot hold. -/
def byteRune (v : Nat) : Option Char :=
  if v < 128 then some (Char.ofNat v) else none

/-- Go `strconv.UnquoteChar` for the quote `"`, on characters: the first character or
escape of the text, with the text after it. A character that may not stand unescaped in an
interpreted string literal (the double quote, the line feed, and for the scanner NUL and
the byte order mark) and a malformed escape give `none`. -/
def UnquoteChar (s : List Char) : Option (Char × List Char) :=
  match s with
  | [] => none
  | c :: cs =>
    if c = backslash then
      match cs with
      | [] => none
      | e :: rest =>
        if e = 'a' then some (Char.ofNat 7, rest)
        else if e = 'b' then some (Char.ofNat 8, rest)
        else if e = 'f' then some (Char.ofNat 12, rest)
        else if e = 'n' then some (Char.ofNat 10, rest)
        else if e = 'r' then some (Char.ofNat 13, rest)
        else if e = 't' then some (Char.ofNat 9, rest)
        else if e = 'v' then some (Char.ofNat 11, rest)
        else if e = backslash then some (backslash, rest)
        else if e = dquote then some (dquote, rest)
        else if e = 'x' then
          match rest with
          | h1 :: h2 :: rest2 =>
            ((hexValue 0 [h1, h2]).bind byteRune).map (fun r => (r, rest2))
          | _ => none
        else if e = 'u' then
          match rest with
          | h1 :: h2 :: h3 :: h4 :: rest2 =>
            ((hexValue 0 [h1, h2, h3, h4]).bind runeOf).map (fun r => (r, rest2))
          | _ => none
        else if e = 'U' then
          match rest with
          | h1 :: h2 :: h3 :: h4 :: h5 :: h6 :: h7 :: h8 :: rest2 =>
            ((hexValue 0 [h1, h2, h3, h4, h5, h6, h7, h8]).bind runeOf).map
              (fun r => (r, rest2))
          | _ => none
        else if '0' ≤ e ∧ e ≤ '7' then
          match rest with
          | o2 :: o3 :: rest2 =>
            ((octValue 0 [e, o2, o3]).bind
              (fun v => if v ≤ 255 then byteRune v else none)).map (fun r => (r, rest2))
          | _ => none
        else none
    else if c = dquote ∨ c = linefeed ∨ c.toNat = 0 ∨ c.toNat = 65279 then none
    else some (c, cs)

/-- The loop of `strconv.Unquote` over the text between the quotes: `UnquoteChar` is
called until nothing is left; `fuel` bounds the number of calls. -/
def unquoteLoop : Nat → List Char → Option (List Char)
  | _, [] => some []
  | 0, _ :: _ => none
  | fuel + 1, c :: cs =>
    match UnquoteChar (c :: cs) with
    | none => none
    | some (r, tail) => (unquoteLoop fuel tail).map (fun t => r :: t)

/-- The value of the text between the quotes of an interpreted string literal; every call
of `UnquoteChar` consumes a character, so the length of the text is fuel enough. -/
def unquoteBody (s : List Char) : Option (List Char) :=
  unquoteLoop s.length s

/-- The value of a double-quoted string literal of Go: the text has to start and end with
a double quote, and what stands between is read by `unquoteBody`. -/
def Unquote (lit : String) : Option String :=
  match lit.toList with
  | [] => none
  | q :: rest =>
    if q = dquote ∧ rest.getLast? = some dquote then
      (unquoteBody rest.dropLast).map String.mk
    else none

/-- A stand-in for the table `strconv.IsPrint` on the ASCII range: the characters from the
space to the tilde. -/
def isPrintASCII (c : Char) : Bool :=
  decide (32 ≤ c.toNat ∧ c.toNat < 127)

end strconv

/-- The substitution `printf "%q" .Output` of the template for an example: the string
literal rendered for its expected output. -/
def renderOutput (IsPrint : Char → Bool) (e : Example) : String :=
  strconv.Quote IsPrint e.Output

end TestMain

/-! ## Sharding: `testsInShard` -/

namespace TestMain

theorem shardLoop_eq_filter {α : Type} (t s : Int) (l : List α) :
    ∀ (i : Nat) (acc : List α),
      shardLoop t s i l acc =
        acc ++ ((l.enumFrom i).filter (fun q => decide (Int.tmod (q.1 : Int) t = s))).map Prod.snd := by
  induction l with
  | nil => intro i acc; simp [shardLoop]
  | cons x xs ih =>
    intro i acc
    simp only [shardLoop, List.enumFrom_cons]
    by_cases h : Int.tmod (i : Int) t = s
    · simp [h, ih, List.filter_cons]
    · simp [h, ih, List.filter_cons]

theorem testsInShard_of_parsed {α : Type} (allTests : List α) (env : Env) (total index : Int)
    (hT : strconv.Atoi (Getenv env "TEST_TOTAL_SHARDS") = some total)
    (hI : strconv.Atoi (Getenv env "TEST_SHARD_INDEX") = some index)
    (ht : 1 < total) (hi : 0 ≤ index) :
    testsInShard allTests env =
      (allTests.enum.filter (fun q => decide ((q.1 : Int) % total = index))).map Prod.snd := by
  have h1 : ¬ total ≤ 1 := not_le.mpr ht
  have h2 : ¬ index < 0 := not_lt.mpr hi
  simp only [testsInShard, hT, hI, h1, h2, if_false, shardLoop_eq_filter, List.nil_append,
    List.enum]
  congr 1
  apply List.filter_congr
  intro q _
  rw [Int.tmod_eq_emod (Int.ofNat_nonneg _) (by omega)]

theorem filter_enumFrom_snd {α : Type} (P : Nat → Bool) (l : List α) :
    ∀ k : Nat,
      (((l.enumFrom k).enumFrom k).filter (fun q => P q.1)).map Prod.snd =
        (l.enumFrom k).filter (fun q => P q.1) := by
  induction l with
  | nil => intro k; simp
  | cons x xs ih =>
    intro k
    simp only [List.enumFrom_cons, List.filter_cons]
    by_cases h : P k = true
    · simp [h, ih]
    · simp [h, ih]

theorem flatMap_ite_singleton {α : Type} (x : α) (k : Nat) :
    ∀ n : Nat, (List.range n).flatMap (fun i => if k = i then [x] else []) =
      if k < n then [x] else [] := by
  intro n
  induction n with
  | zero => simp
  | succ n ih =>
    rw [List.range_succ, List.flatMap_append, ih]
    by_cases h1 : k < n
    · have h2 : k ≠ n := Nat.ne_of_lt h1
      have h3 : k < n + 1 := Nat.lt_succ_of_lt h1
      simp [h1, h2, h3]
    · by_cases h2 : k = n
      · subst h2; simp
      · have h3 : ¬ k < n + 1 := by omega
        simp [h1, h2, h3]

theorem flatMap_filter_key_perm {α : Type} (key : α → Nat) (n : Nat) (l : List α)
    (h : ∀ x ∈ l, key x < n) :
    List.Perm ((List.range n).flatMap (fun i => l.filter (fun x => decide (key x = i)))) l := by
  induction l with
  | nil => simp
  | cons x xs ih =>
    have hx : key x < n := h x (List.mem_cons_self _ _)
    have hxs : ∀ y ∈ xs, key y < n := fun y hy => h y (List.mem_cons_of_mem _ hy)
    have e : (fun i => (x :: xs).filter (fun y => decide (key y = i))) =
        (fun i => (if key x = i then [x] else []) ++ xs.filter (fun y => decide (key y = i))) := by
      funext i
      by_cases hk : key x = i
      · simp [List.filter_cons, hk]
      · simp [List.filter_cons, hk]
    rw [e]
    refine List.Perm.trans (List.flatMap_append_perm _ _ _).symm ?_
    rw [flatMap_ite_singleton x (key x) n, if_pos hx]
    exact List.Perm.cons x (ih hxs)

end TestMain

namespace TestMain

theorem testsInShard_enum_eq_filter {α : Type} (allTests : List α) (env : Env) (n i : Nat)
    (hn : 1 < n)
    (hT : strconv.Atoi (Getenv env "TEST_TOTAL_SHARDS") = some (n : Int))
    (hI : strconv.Atoi (Getenv env "TEST_SHARD_INDEX") = some (i : Int)) :
    testsInShard allTests.enum env = allTests.enum.filter (fun q => decide (q.1 % n = i)) := by
  rw [testsInShard_of_parsed allTests.enum env n i hT hI (by exact_mod_cast hn)
    (Int.ofNat_nonneg _)]
  have h := filter_enumFrom_snd (fun p => decide (((p : Nat) : Int) % (n : Int) = (i : Int)))
    allTests 0
  simp only [List.enum] at h ⊢
  rw [h]
  apply List.filter_congr
  intro q _
  have : (((q.1 : Nat) : Int) % (n : Int) = (i : Int)) ↔ q.1 % n = i := by
    constructor
    · intro h; exact_mod_cast h
    · intro h; exact_mod_cast h
  simp [this]

theorem testsInShard_index_ge_total {α : Type} (allTests : List α) (env : Env)
    (total index : Int)
    (hT : strconv.Atoi (Getenv env "TEST_TOTAL_SHARDS") = some total)
    (hI : strconv.Atoi (Getenv env "TEST_SHARD_INDEX") = some index)
    (ht : 1 < total) (hi : total ≤ index) :
    testsInShard allTests env = [] := by
  rw [testsInShard_of_parsed allTests env total index hT hI ht (by omega)]
  rw [List.map_eq_nil_iff, List.filter_eq_nil_iff]
  intro q _
  have h1 : (q.1 : Int) % total < total := Int.emod_lt_of_pos _ (by omega)
  simp only [decide_eq_true_eq]
  omega

/-- C3: when TEST_TOTAL_SHARDS and TEST_SHARD_INDEX parse as integers `total > 1` and
`index ≥ 0`, `testsInShard` returns exactly the tests whose discovery position `p`
satisfies `p mod total = index`, in their original order; for `[A, B, C, D, E]`, total 3 and
index 1 the result is `[B, E]`. -/
theorem testsInShard_selects_residue_class {α : Type} (allTests : List α) (env : Env)
    (total index : Int)
    (hT : strconv.Atoi (Getenv env "TEST_TOTAL_SHARDS") = some total)
    (hI : strconv.Atoi (Getenv env "TEST_SHARD_INDEX") = some index)
    (ht : 1 < total) (hi : 0 ≤ index) :
    testsInShard allTests env =
        (allTests.enum.filter (fun q => decide ((q.1 : Int) % total = index))).map Prod.snd
      ∧ testsInShard ["A", "B", "C", "D", "E"] (shardEnv "3" "1") = ["B", "E"] :=
  ⟨testsInShard_of_parsed allTests env total index hT hI ht hi, by decide⟩

theorem testsInShard_selects_residue_class_witness :
    testsInShard ["A", "B", "C", "D", "E"] (shardEnv "3" "1") =
        ((["A", "B", "C", "D", "E"].enum.filter
          (fun q => decide ((q.1 : Int) % 3 = 1))).map Prod.snd)
      ∧ testsInShard ["A", "B", "C", "D", "E"] (shardEnv "3" "1") = ["B", "E"] :=
  testsInShard_selects_residue_class ["A", "B", "C", "D", "E"] (shardEnv "3" "1") 3 1
    (by decide) (by decide) (by decide) (by decide)

/-- C4: the shards partition the ordered test list. For a shard total `n > 1`, with the
tests tagged by their position: the selection of shard `i` is the selection of the untagged
list; position `p` is selected by shard `i` exactly when `i = p mod n`; the selections of
two different shards are disjoint; and the selections of the shards `0, …, n-1` together
are a rearrangement of the whole list, so every position occurs exactly once. -/
theorem shards_partition_test_list {α : Type} (allTests : List α) (n : Nat)
    (envOf : Nat → Env) (hn : 1 < n)
    (hT : ∀ i, i < n → strconv.Atoi (Getenv (envOf i) "TEST_TOTAL_SHARDS") = some (n : Int))
    (hI : ∀ i, i < n → strconv.Atoi (Getenv (envOf i) "TEST_SHARD_INDEX") = some (i : Int)) :
    (∀ i, i < n →
        (testsInShard allTests.enum (envOf i)).map Prod.snd = testsInShard allTests (envOf i))
      ∧ (∀ p (hp : p < allTests.length) i, i < n →
          ((p, allTests[p]) ∈ testsInShard allTests.enum (envOf i) ↔ i = p % n))
      ∧ (∀ i j, i < n → j < n → i ≠ j →
          List.Disjoint (testsInShard allTests.enum (envOf i))
            (testsInShard allTests.enum (envOf j)))
      ∧ List.Perm ((List.range n).flatMap (fun i => testsInShard allTests.enum (envOf i)))
          allTests.enum
      ∧ (allTests.enum.map Prod.fst).Nodup
      ∧ List.Perm ((List.range n).flatMap (fun i => testsInShard allTests (envOf i)))
          allTests := by
  have key : ∀ i, i < n → testsInShard allTests.enum (envOf i) =
      allTests.enum.filter (fun q => decide (q.1 % n = i)) := fun i hi =>
    testsInShard_enum_eq_filter allTests (envOf i) n i hn (hT i hi) (hI i hi)
  have hpos : 0 < n := by omega
  have hperm : List.Perm
      ((List.range n).flatMap (fun i => testsInShard allTests.enum (envOf i)))
      allTests.enum := by
    have e : (List.range n).flatMap (fun i => testsInShard allTests.enum (envOf i)) =
        (List.range n).flatMap
          (fun i => allTests.enum.filter (fun q => decide (q.1 % n = i))) := by
      apply List.flatMap_congr
      intro i hi
      exact key i (List.mem_range.mp hi)
    rw [e]
    exact flatMap_filter_key_perm (fun q : Nat × α => q.1 % n) n allTests.enum
      (fun q _ => Nat.mod_lt _ hpos)
  have hsnd : ∀ i, i < n →
      (testsInShard allTests.enum (envOf i)).map Prod.snd = testsInShard allTests (envOf i) := by
    intro i hi
    rw [key i hi,
      testsInShard_of_parsed allTests (envOf i) n i (hT i hi) (hI i hi) (by exact_mod_cast hn)
        (Int.ofNat_nonneg _)]
    congr 1
    apply List.filter_congr
    intro q _
    have : (((q.1 : Nat) : Int) % (n : Int) = (i : Int)) ↔ q.1 % n = i := by
      constructor
      · intro h; exact_mod_cast h
      · intro h; exact_mod_cast h
    simp [this]
  refine ⟨hsnd, ?_, ?_, hperm, List.nodup_enum_map_fst allTests, ?_⟩
  · intro p hp i hi
    rw [key i hi, List.mem_filter]
    have hmem : (p, allTests[p]) ∈ allTests.enum := by
      rw [List.mk_mem_enum_iff_getElem?]
      exact List.getElem?_eq_getElem hp
    simp only [decide_eq_true_eq]
    constructor
    · intro h; exact h.2.symm
    · intro h; exact ⟨hmem, h.symm⟩
  · intro i j hi hj hij q hqi hqj
    rw [key i hi, List.mem_filter] at hqi
    rw [key j hj, List.mem_filter] at hqj
    simp only [decide_eq_true_eq] at hqi hqj
    exact hij (hqi.2.symm.trans hqj.2)
  · have h := hperm.map Prod.snd
    rw [List.map_flatMap, List.enum_map_snd] at h
    refine List.Perm.trans ?_ h
    apply List.Perm.of_eq
    apply List.flatMap_congr
    intro i hi
    exact (hsnd i (List.mem_range.mp hi)).symm

theorem shards_partition_test_list_witness :
    (∀ i, i < 2 →
        (testsInShard ["A", "B", "C"].enum
          (shardEnv "2" (if i = 0 then "0" else "1"))).map Prod.snd =
          testsInShard ["A", "B", "C"] (shardEnv "2" (if i = 0 then "0" else "1")))
      ∧ (∀ p (hp : p < ["A", "B", "C"].length) i, i < 2 →
          ((p, ["A", "B", "C"][p]) ∈ testsInShard ["A", "B", "C"].enum
            (shardEnv "2" (if i = 0 then "0" else "1")) ↔ i = p % 2))
      ∧ (∀ i j, i < 2 → j < 2 → i ≠ j →
          List.Disjoint
            (testsInShard ["A", "B", "C"].enum (shardEnv "2" (if i = 0 then "0" else "1")))
            (testsInShard ["A", "B", "C"].enum (shardEnv "2" (if j = 0 then "0" else "1"))))
      ∧ List.Perm
          ((List.range 2).flatMap (fun i => testsInShard ["A", "B", "C"].enum
            (shardEnv "2" (if i = 0 then "0" else "1"))))
          ["A", "B", "C"].enum
      ∧ (["A", "B", "C"].enum.map Prod.fst).Nodup
      ∧ List.Perm
          ((List.range 2).flatMap (fun i => testsInShard ["A", "B", "C"]
            (shardEnv "2" (if i = 0 then "0" else "1"))))
          ["A", "B", "C"] :=
  shards_partition_test_list ["A", "B", "C"] 2
    (fun i => shardEnv "2" (if i = 0 then "0" else "1")) (by decide)
    (by intro i hi; interval_cases i <;> decide)
    (by intro i hi; interval_cases i <;> decide)

/-- C5: when TEST_TOTAL_SHARDS or TEST_SHARD_INDEX is not set or empty, or does not
parse as an integer, or the parsed total is at most 1, or the parsed index is negative,
`testsInShard` returns the full test list unchanged. -/
theorem testsInShard_full_list_without_valid_sharding {α : Type} (allTests : List α)
    (env : Env)
    (h : env "TEST_TOTAL_SHARDS" = none ∨ env "TEST_SHARD_INDEX" = none
      ∨ env "TEST_TOTAL_SHARDS" = some "" ∨ env "TEST_SHARD_INDEX" = some ""
      ∨ strconv.Atoi (Getenv env "TEST_TOTAL_SHARDS") = none
      ∨ strconv.Atoi (Getenv env "TEST_SHARD_INDEX") = none
      ∨ (∃ total, strconv.Atoi (Getenv env "TEST_TOTAL_SHARDS") = some total ∧ total ≤ 1)
      ∨ (∃ index, strconv.Atoi (Getenv env "TEST_SHARD_INDEX") = some index ∧ index < 0)) :
    testsInShard allTests env = allTests := by
  have hempty : strconv.Atoi "" = none := by decide
  have hidx : (strconv.Atoi (Getenv env "TEST_SHARD_INDEX") = none
      ∨ ∃ index, strconv.Atoi (Getenv env "TEST_SHARD_INDEX") = some index ∧ index < 0) →
      testsInShard allTests env = allTests := by
    intro hi
    unfold testsInShard
    cases hT : strconv.Atoi (Getenv env "TEST_TOTAL_SHARDS") with
    | none => rfl
    | some total =>
      by_cases ht : total ≤ 1
      · simp [ht]
      · rcases hi with hi | ⟨index, hi, hneg⟩
        · simp [ht, hi]
        · simp [ht, hi, hneg]
  have htot : (strconv.Atoi (Getenv env "TEST_TOTAL_SHARDS") = none
      ∨ ∃ total, strconv.Atoi (Getenv env "TEST_TOTAL_SHARDS") = some total ∧ total ≤ 1) →
      testsInShard allTests env = allTests := by
    intro ht
    unfold testsInShard
    rcases ht with ht | ⟨total, ht, hle⟩
    · simp [ht]
    · simp [ht, hle]
  rcases h with h | h | h | h | h | h | h | h
  · exact htot (Or.inl (by simp [Getenv, h, hempty]))
  · exact hidx (Or.inl (by simp [Getenv, h, hempty]))
  · exact htot (Or.inl (by simp [Getenv, h, hempty]))
  · exact hidx (Or.inl (by simp [Getenv, h, hempty]))
  · exact htot (Or.inl h)
  · exact hidx (Or.inl h)
  · exact htot (Or.inr h)
  · exact hidx (Or.inr h)

theorem testsInShard_full_list_without_valid_sharding_witness :
    testsInShard ["A", "B", "C"] (fun _ => none) = ["A", "B", "C"] :=
  testsInShard_full_list_without_valid_sharding ["A", "B", "C"] (fun _ => none) (Or.inl rfl)

/-- C6, at the failing input: with the one test `A`, TEST_TOTAL_SHARDS=2 and
TEST_SHARD_INDEX=2 (not a shard number), `testsInShard` returns the empty selection,
although both variables parse, the total is above 1 and the index is not negative. -/
theorem testsInShard_index_out_of_range_runs_nothing :
    strconv.Atoi (Getenv (shardEnv "2" "2") "TEST_TOTAL_SHARDS") = some 2
      ∧ strconv.Atoi (Getenv (shardEnv "2" "2") "TEST_SHARD_INDEX") = some 2
      ∧ testsInShard ["A"] (shardEnv "2" "2") = [] := by
  decide

end TestMain

/-! ## The declaration loop -/

namespace TestMain

theorem hasPrefix_Test_not_Benchmark (s : String)
    (h : strings.HasPrefix s "Test" = true) : strings.HasPrefix s "Benchmark" = false := by
  unfold strings.HasPrefix at h ⊢
  have e1 : "Test".toList = ['T', 'e', 's', 't'] := rfl
  have e2 : "Benchmark".toList = ['B', 'e', 'n', 'c', 'h', 'm', 'a', 'r', 'k'] := rfl
  rw [e1] at h
  rw [e2]
  cases hs : s.toList with
  | nil => rfl
  | cons c cs =>
    rw [hs] at h
    simp only [List.isPrefixOf, Bool.and_eq_true, beq_iff_eq] at h
    have hc : c = 'T' := h.1.symm
    subst hc
    simp [List.isPrefixOf]

theorem hasPrefix_Benchmark_ne_TestMain (s : String)
    (h : strings.HasPrefix s "Benchmark" = true) : s ≠ "TestMain" := by
  intro e
  subst e
  revert h
  decide

/-- The body of the declaration loop, as one update of the state. -/
theorem analyseDecl_eq (pkg : String) (st : State) (d : ast.Decl) :
    analyseDecl pkg st d =
      { cases := { st.cases with
          Tests := st.cases.Tests ++ declTests pkg d
          Benchmarks := st.cases.Benchmarks ++ declBenchmarks pkg d
          TestMain := if declIsTestMain d then pkg ++ "." ++ "TestMain"
            else st.cases.TestMain }
        pkgs := if declContributes d then markUsed st.pkgs pkg else st.pkgs } := by
  cases d with
  | gen => simp [analyseDecl, declTests, declBenchmarks, declIsTestMain, declContributes]
  | func fn =>
    obtain ⟨recv, name, ⟨params, results⟩⟩ := fn
    simp only [analyseDecl, declTests, declBenchmarks, declIsTestMain, declContributes,
      isTestMainFunc, isTestFunc, isBenchmarkFunc, shapeOK]
    cases recv with
    | some r => simp
    | none =>
      by_cases hn : name = "TestMain"
      · subst hn
        have hb : strings.HasPrefix "TestMain" "Benchmark" = false := by decide
        simp [hb]
      · cases results with
        | some r =>
          cases params with
          | nil => simp [hn]
          | cons p ps => cases ps <;> simp [hn]
        | none =>
          cases params with
          | nil => simp [hn]
          | cons p ps =>
            cases ps with
            | cons q qs => simp [hn]
            | nil =>
              obtain ⟨names, typ⟩ := p
              cases typ with
              | Ident n => simp [hn]
              | SelectorExpr X sel => simp [hn]
              | Other => simp [hn]
              | StarExpr X =>
                cases X with
                | Ident n => simp [hn]
                | StarExpr Y => simp [hn]
                | Other => simp [hn]
                | SelectorExpr Y sel =>
                  by_cases ht : strings.HasPrefix name "Test" = true
                  · have hb := hasPrefix_Test_not_Benchmark name ht
                    by_cases hs : sel = "T"
                    · simp [hn, testBlock, benchmarkBlock, ht, hb, hs]
                    · simp [hn, testBlock, benchmarkBlock, ht, hb, hs]
                  · by_cases hb : strings.HasPrefix name "Benchmark" = true
                    · by_cases hs : sel = "B"
                      · simp [hn, testBlock, benchmarkBlock, ht, hb, hs]
                      · simp [hn, testBlock, benchmarkBlock, ht, hb, hs]
                    · simp [hn, testBlock, benchmarkBlock, ht, hb]

end TestMain

/-! ## The loops over the declarations, the examples and the files -/

namespace TestMain

theorem markUsed_idem (pkgs : List String) (pkg : String) :
    markUsed (markUsed pkgs pkg) pkg = markUsed pkgs pkg := by
  unfold markUsed
  by_cases h : pkg ∈ pkgs
  · simp [h]
  · simp [h]

theorem mem_markUsed (pkgs : List String) (pkg a : String) :
    a ∈ markUsed pkgs pkg ↔ a ∈ pkgs ∨ a = pkg := by
  unfold markUsed
  by_cases h : pkg ∈ pkgs
  · simp only [h, if_true]
    constructor
    · intro ha; exact Or.inl ha
    · rintro (ha | ha)
      · exact ha
      · subst ha; exact h
  · simp [h]

theorem nodup_markUsed (pkgs : List String) (pkg : String) (h : pkgs.Nodup) :
    (markUsed pkgs pkg).Nodup := by
  unfold markUsed
  by_cases hm : pkg ∈ pkgs
  · simp [hm, h]
  · simp only [hm, if_false]
    rw [List.nodup_append]
    refine ⟨h, List.nodup_singleton _, ?_⟩
    intro a ha hb
    rw [List.mem_singleton] at hb
    subst hb
    exact hm ha

/-- The loop over the declarations of a file, as one update of the state. -/
theorem foldl_analyseDecl_eq (pkg : String) (ds : List ast.Decl) :
    ∀ st : State,
      ds.foldl (analyseDecl pkg) st =
        { cases := { st.cases with
            Tests := st.cases.Tests ++ ds.flatMap (declTests pkg)
            Benchmarks := st.cases.Benchmarks ++ ds.flatMap (declBenchmarks pkg)
            TestMain := if ds.any declIsTestMain then pkg ++ "." ++ "TestMain"
              else st.cases.TestMain }
          pkgs := if ds.any declContributes then markUsed st.pkgs pkg else st.pkgs } := by
  induction ds with
  | nil => intro st; simp
  | cons d ds ih =>
    intro st
    rw [List.foldl_cons, ih, analyseDecl_eq]
    by_cases h1 : declIsTestMain d = true
    · by_cases h2 : declContributes d = true
      · simp [h1, h2, List.flatMap_cons, List.append_assoc, markUsed_idem]
      · simp [h1, h2, List.flatMap_cons, List.append_assoc]
    · by_cases h2 : declContributes d = true
      · simp [h1, h2, List.flatMap_cons, List.append_assoc, markUsed_idem]
      · simp [h1, h2, List.flatMap_cons, List.append_assoc]

/-- The body of the example loop, as one update of the state. -/
theorem analyseExample_eq (pkg : String) (st : State) (e : doc.Example) :
    analyseExample pkg st e =
      { cases := { st.cases with
          Examples := st.cases.Examples ++
            (if isIncludedExample e then
              [{ Name := "Example" ++ e.Name, Package := pkg, Output := e.Output,
                 Unordered := e.Unordered }]
            else []) }
        pkgs := if isIncludedExample e then markUsed st.pkgs pkg else st.pkgs } := by
  unfold analyseExample isIncludedExample
  by_cases h1 : e.Output = ""
  · cases h2 : e.EmptyOutput <;> simp [h1, h2]
  · simp [h1]

/-- The loop over the examples of a file, as one update of the state. -/
theorem foldl_analyseExample_eq (pkg : String) (es : List doc.Example) :
    ∀ st : State,
      es.foldl (analyseExample pkg) st =
        { cases := { st.cases with
            Examples := st.cases.Examples ++
              (es.filter isIncludedExample).map
                (fun e => { Name := "Example" ++ e.Name, Package := pkg, Output := e.Output,
                            Unordered := e.Unordered }) }
          pkgs := if es.any isIncludedExample then markUsed st.pkgs pkg else st.pkgs } := by
  induction es with
  | nil => intro st; simp
  | cons e es ih =>
    intro st
    rw [List.foldl_cons, ih, analyseExample_eq]
    by_cases h : isIncludedExample e = true
    · simp [h, List.filter_cons, markUsed_idem]
    · simp [h, List.filter_cons]

/-- The analysis of one file, as one update of the state. -/
theorem analyseFile_eq (sourceMap : GoMap String) (st : State) (f : String) (parse : File) :
    analyseFile sourceMap st f parse =
      { cases := { st.cases with
          Tests := st.cases.Tests ++ fileTests (effectivePkg sourceMap f parse) parse
          Benchmarks :=
            st.cases.Benchmarks ++ fileBenchmarks (effectivePkg sourceMap f parse) parse
          Examples := st.cases.Examples ++ fileExamples (effectivePkg sourceMap f parse) parse
          TestMain :=
            if parse.Decls.any declIsTestMain then
              effectivePkg sourceMap f parse ++ "." ++ "TestMain"
            else st.cases.TestMain }
        pkgs :=
          if fileContributes parse then markUsed st.pkgs (effectivePkg sourceMap f parse)
          else st.pkgs } := by
  unfold analyseFile fileTests fileBenchmarks fileExamples fileContributes
  simp only [foldl_analyseDecl_eq, foldl_analyseExample_eq]
  by_cases h1 : parse.Examples.any isIncludedExample = true
  · by_cases h2 : parse.Decls.any declContributes = true
    · simp [h1, h2, markUsed_idem]
    · simp [h1, h2]
  · by_cases h2 : parse.Decls.any declContributes = true
    · simp [h1, h2]
    · simp [h1, h2]

theorem analyseParsed_append (sourceMap : GoMap String) (st : State)
    (fs1 fs2 : List (String × File)) :
    analyseParsed sourceMap st (fs1 ++ fs2) =
      analyseParsed sourceMap (analyseParsed sourceMap st fs1) fs2 := by
  simp [analyseParsed, List.foldl_append]

theorem analyseParsed_tests (sourceMap : GoMap String) (files : List (String × File)) :
    ∀ st : State,
      (analyseParsed sourceMap st files).cases.Tests =
        st.cases.Tests ++
          files.flatMap (fun fp => fileTests (effectivePkg sourceMap fp.1 fp.2) fp.2) := by
  induction files with
  | nil => intro st; simp [analyseParsed]
  | cons fp fs ih =>
    intro st
    have h := ih (analyseFile sourceMap st fp.1 fp.2)
    simp only [analyseParsed, List.foldl_cons] at h ⊢
    rw [h, analyseFile_eq]
    simp [List.flatMap_cons, List.append_assoc]

theorem analyseParsed_benchmarks (sourceMap : GoMap String) (files : List (String × File)) :
    ∀ st : State,
      (analyseParsed sourceMap st files).cases.Benchmarks =
        st.cases.Benchmarks ++
          files.flatMap (fun fp => fileBenchmarks (effectivePkg sourceMap fp.1 fp.2) fp.2) := by
  induction files with
  | nil => intro st; simp [analyseParsed]
  | cons fp fs ih =>
    intro st
    have h := ih (analyseFile sourceMap st fp.1 fp.2)
    simp only [analyseParsed, List.foldl_cons] at h ⊢
    rw [h, analyseFile_eq]
    simp [List.flatMap_cons, List.append_assoc]

theorem analyseParsed_examples (sourceMap : GoMap String) (files : List (String × File)) :
    ∀ st : State,
      (analyseParsed sourceMap st files).cases.Examples =
        st.cases.Examples ++
          files.flatMap (fun fp => fileExamples (effectivePkg sourceMap fp.1 fp.2) fp.2) := by
  induction files with
  | nil => intro st; simp [analyseParsed]
  | cons fp fs ih =>
    intro st
    have h := ih (analyseFile sourceMap st fp.1 fp.2)
    simp only [analyseParsed, List.foldl_cons] at h ⊢
    rw [h, analyseFile_eq]
    simp [List.flatMap_cons, List.append_assoc]

theorem analyseParsed_mem_pkgs (sourceMap : GoMap String) (files : List (String × File)) :
    ∀ (st : State) (a : String),
      a ∈ (analyseParsed sourceMap st files).pkgs ↔
        a ∈ st.pkgs ∨
          ∃ fp ∈ files, fileContributes fp.2 = true ∧ effectivePkg sourceMap fp.1 fp.2 = a := by
  induction files with
  | nil => intro st a; simp [analyseParsed]
  | cons fp fs ih =>
    intro st a
    have h := ih (analyseFile sourceMap st fp.1 fp.2) a
    simp only [analyseParsed, List.foldl_cons] at h ⊢
    rw [h, analyseFile_eq]
    by_cases hc : fileContributes fp.2 = true
    · simp only [hc, if_true, mem_markUsed, List.mem_cons, exists_eq_or_imp, true_and]
      constructor
      · rintro ((h1 | h1) | h1)
        · exact Or.inl h1
        · exact Or.inr (Or.inl h1.symm)
        · exact Or.inr (Or.inr h1)
      · rintro (h1 | h1 | h1)
        · exact Or.inl (Or.inl h1)
        · exact Or.inl (Or.inr h1.symm)
        · exact Or.inr h1
    · simp [hc]

theorem analyseParsed_nodup_pkgs (sourceMap : GoMap String) (files : List (String × File)) :
    ∀ st : State, st.pkgs.Nodup → (analyseParsed sourceMap st files).pkgs.Nodup := by
  induction files with
  | nil => intro st h; simpa [analyseParsed] using h
  | cons fp fs ih =>
    intro st hst
    have h := ih (analyseFile sourceMap st fp.1 fp.2)
    simp only [analyseParsed, List.foldl_cons] at h ⊢
    apply h
    rw [analyseFile_eq]
    by_cases hc : fileContributes fp.2 = true
    · simp only [hc, if_true]
      exact nodup_markUsed _ _ hst
    · simpa [hc] using hst

/-- The loop over the file names either stops at the first file that fails to parse, or
ends in the state `analyseParsed` gives for the parsed files. -/
theorem analyseFiles_ok (ParseFile : String → Except String File) (sourceMap : GoMap String)
    (filenames : List String) :
    ∀ (st : State) (log : List String) (st1 : State) (parsed : List String),
      analyseFiles ParseFile sourceMap st log filenames = (.ok st1, parsed) →
        ∃ files : List (String × File),
          files.map Prod.fst = filenames ∧ (∀ fp ∈ files, ParseFile fp.1 = .ok fp.2) ∧
            st1 = analyseParsed sourceMap st files ∧ parsed = log ++ filenames := by
  induction filenames with
  | nil =>
    intro st log st1 parsed h
    simp only [analyseFiles, Prod.mk.injEq, Except.ok.injEq] at h
    exact ⟨[], rfl, by simp, by simp [analyseParsed, h.1], by simp [h.2]⟩
  | cons f fs ih =>
    intro st log st1 parsed h
    unfold analyseFiles at h
    cases hp : ParseFile f with
    | error msg => simp [hp] at h
    | ok parse =>
      simp only [hp] at h
      obtain ⟨files, h1, h2, h3, h4⟩ := ih _ _ _ _ h
      refine ⟨(f, parse) :: files, by simp [h1], ?_, ?_, ?_⟩
      · intro fp hfp
        rcases List.mem_cons.mp hfp with e | e
        · subst e; exact hp
        · exact h2 fp e
      · simp [analyseParsed, h3]
      · simp [h4]

theorem analyseFiles_of_parsed (ParseFile : String → Except String File)
    (sourceMap : GoMap String) (files : List (String × File))
    (hp : ∀ fp ∈ files, ParseFile fp.1 = .ok fp.2) :
    ∀ (st : State) (log : List String),
      analyseFiles ParseFile sourceMap st log (files.map Prod.fst) =
        (.ok (analyseParsed sourceMap st files), log ++ files.map Prod.fst) := by
  induction files with
  | nil => intro st log; simp [analyseFiles, analyseParsed]
  | cons fp fs ih =>
    intro st log
    have h1 : ParseFile fp.1 = .ok fp.2 := hp fp (List.mem_cons_self _ _)
    have h2 := ih (fun q hq => hp q (List.mem_cons_of_mem _ hq))
      (analyseFile sourceMap st fp.1 fp.2) (log ++ [fp.1])
    simp only [List.map_cons, analyseFiles, h1, h2]
    simp [analyseParsed]

end TestMain

/-! ## Sorting the imports -/

namespace TestMain

theorem insertLoop_present (x : Import) (done : List Import) :
    ∃ r : List Import,
      insertLoop importLess (some x) (done.map some) = some (r.map some) ∧
        r.Perm (x :: done) ∧
        (done.Pairwise (fun a b => b.Name.toList ≤ a.Name.toList) → r.Pairwise (fun a b => b.Name.toList ≤ a.Name.toList)) := by
  induction done with
  | nil => exact ⟨[x], rfl, List.Perm.refl _, fun _ => List.pairwise_singleton _ _⟩
  | cons y ys ih =>
    obtain ⟨r, h1, h2, h3⟩ := ih
    by_cases hlt : x.Name.toList < y.Name.toList
    · refine ⟨y :: r, ?_, ?_, ?_⟩
      · have hd : decide (x.Name.toList < y.Name.toList) = true := decide_eq_true hlt
        simp only [List.map_cons, insertLoop, importLess, hd, h1, Option.map_some']
      · exact (List.Perm.cons y h2).trans (List.Perm.swap x y ys)
      · intro hp
        rw [List.pairwise_cons] at hp ⊢
        refine ⟨?_, h3 hp.2⟩
        intro b hb
        rcases List.mem_cons.mp (h2.subset hb) with e | e
        · subst e; exact le_of_lt hlt
        · exact hp.1 b e
    · refine ⟨x :: y :: ys, ?_, List.Perm.refl _, ?_⟩
      · have hd : decide (x.Name.toList < y.Name.toList) = false := decide_eq_false hlt
        simp only [List.map_cons, insertLoop, importLess, hd]
      · intro hp
        rw [List.pairwise_cons]
        refine ⟨?_, hp⟩
        intro b hb
        have hyx : y.Name.toList ≤ x.Name.toList := not_lt.mp hlt
        rcases List.mem_cons.mp hb with e | e
        · subst e; exact hyx
        · exact le_trans ((List.pairwise_cons.mp hp).1 b e) hyx

theorem insertionSortAux_present (rest : List Import) :
    ∀ done : List Import, done.Pairwise (fun a b => b.Name.toList ≤ a.Name.toList) →
      ∃ r : List Import,
        insertionSortAux importLess (done.map some) (rest.map some) = some (r.map some) ∧
          r.Perm (done ++ rest) ∧ r.Pairwise (fun a b => a.Name.toList ≤ b.Name.toList) := by
  induction rest with
  | nil =>
    intro done hd
    refine ⟨done.reverse, by simp [insertionSortAux], by simp, ?_⟩
    rw [List.pairwise_reverse]
    exact hd
  | cons x rest ih =>
    intro done hd
    obtain ⟨d1, h1, h2, h3⟩ := insertLoop_present x done
    obtain ⟨r, h4, h5, h6⟩ := ih d1 (h3 hd)
    refine ⟨r, ?_, ?_, h6⟩
    · simp only [List.map_cons, insertionSortAux, h1, h4]
    · refine h5.trans ?_
      refine (List.Perm.append_right rest h2).trans ?_
      simp only [List.cons_append]
      exact (List.perm_middle).symm

/-- On a slice without a missing entry `sort.Slice` returns, and its result is a
rearrangement of the slice in ascending order of the names. -/
theorem sortSlice_present (l : List Import) :
    ∃ r : List Import,
      sortSlice importLess (l.map some) = some (r.map some) ∧ r.Perm l ∧
        r.Pairwise (fun a b => a.Name.toList ≤ b.Name.toList) := by
  cases l with
  | nil => exact ⟨[], rfl, List.Perm.refl _, List.Pairwise.nil⟩
  | cons x rest =>
    obtain ⟨r, h1, h2, h3⟩ := insertionSortAux_present rest [x] (List.pairwise_singleton _ _)
    exact ⟨r, by simpa [sortSlice] using h1, by simpa using h2, h3⟩

theorem insertionSortAux_entries_present (ys : List (Option Import))
    (rest : List (Option Import)) :
    ∀ done : List Import, done ≠ [] →
      insertionSortAux importLess (done.map some) rest = some ys →
        ∃ l : List Import, rest = l.map some := by
  induction rest with
  | nil => intro done _ _; exact ⟨[], rfl⟩
  | cons x rest ih =>
    intro done hne h
    cases done with
    | nil => exact absurd rfl hne
    | cons y dn =>
      cases x with
      | none => simp [insertionSortAux, insertLoop, importLess] at h
      | some x1 =>
        obtain ⟨d1, h1, h2, _⟩ := insertLoop_present x1 (y :: dn)
        have hne1 : d1 ≠ [] := by
          intro e
          subst e
          exact absurd h2.length_eq (by simp)
        rw [insertionSortAux, h1] at h
        obtain ⟨l, hl⟩ := ih d1 hne1 h
        exact ⟨x1 :: l, by simp [hl]⟩

/-- When `sort.Slice` returns on a slice of two or more entries, no entry is missing:
every entry takes part in a comparison. -/
theorem sortSlice_entries_present (xs ys : List (Option Import))
    (h : sortSlice importLess xs = some ys) (hlen : 2 ≤ xs.length) :
    ∃ l : List Import, xs = l.map some := by
  cases xs with
  | nil => simp at hlen
  | cons x0 rest =>
    cases rest with
    | nil => simp at hlen
    | cons x1 rest =>
      cases x0 with
      | none =>
        cases x1 <;> simp [sortSlice, insertionSortAux, insertLoop, importLess] at h
      | some y0 =>
        have h1 : insertionSortAux importLess ([y0].map some) (x1 :: rest) = some ys := by
          simpa [sortSlice] using h
        obtain ⟨l, hl⟩ := insertionSortAux_entries_present ys (x1 :: rest) [y0] (by simp) h1
        exact ⟨y0 :: l, by simp [hl]⟩

/-- Whatever `sort.Slice` returns is a rearrangement of the slice. -/
theorem sortSlice_perm (xs ys : List (Option Import))
    (h : sortSlice importLess xs = some ys) : ys.Perm xs := by
  by_cases hlen : 2 ≤ xs.length
  · obtain ⟨l, hl⟩ := sortSlice_entries_present xs ys h hlen
    obtain ⟨r, h1, h2, _⟩ := sortSlice_present l
    rw [hl, h1] at h
    rw [← Option.some.inj h, hl]
    exact h2.map some
  · cases xs with
    | nil =>
      simp only [sortSlice, Option.some.injEq] at h
      rw [← h]
    | cons x0 rest =>
      cases rest with
      | nil =>
        simp only [sortSlice, insertionSortAux, List.reverse_cons, List.reverse_nil,
          List.nil_append, Option.some.injEq] at h
        rw [← h]
      | cons x1 rest => simp at hlen

/-- Whatever `sort.Slice` returns is strictly ascending by alias with every entry present,
as soon as the present entries of the slice have pairwise different names. -/
theorem sortSlice_strictly_ascending (xs ys : List (Option Import))
    (h : sortSlice importLess xs = some ys)
    (hd : xs.Pairwise (fun a b => ∀ x y, a = some x → b = some y → x.Name ≠ y.Name)) :
    ys.Pairwise aliasBefore := by
  by_cases hlen : 2 ≤ xs.length
  · obtain ⟨l, hl⟩ := sortSlice_entries_present xs ys h hlen
    obtain ⟨r, h1, h2, h3⟩ := sortSlice_present l
    rw [hl, h1] at h
    rw [← Option.some.inj h]
    have hdl : l.Pairwise (fun a b => a.Name ≠ b.Name) := by
      rw [hl, List.pairwise_map] at hd
      exact hd.imp (fun hab => hab _ _ rfl rfl)
    have hdr : r.Pairwise (fun a b => a.Name ≠ b.Name) :=
      (h2.pairwise_iff (fun {a b} (hab : a.Name ≠ b.Name) => hab.symm)).mpr hdl
    rw [List.pairwise_map]
    exact (h3.and hdr).imp (fun hab => lt_of_le_of_ne hab.1 (fun e => hab.2 (String.ext e)))
  · have hp := (sortSlice_perm xs ys h).length_eq
    cases ys with
    | nil => exact List.Pairwise.nil
    | cons y0 rest =>
      cases rest with
      | nil => exact List.pairwise_singleton _ _
      | cons y1 rest =>
        simp only [List.length_cons] at hp
        omega

end TestMain

/-! ## The import map and the finalized import list -/

namespace TestMain

theorem get_set {V : Type} (m : GoMap V) (k : String) (v : V) (k1 : String) :
    (m.set k v).get k1 = if k1 = k then some v else m.get k1 := by
  unfold GoMap.set GoMap.get
  rw [List.lookup_cons]
  by_cases h : k1 = k
  · simp [h]
  · have : (k1 == k) = false := by simpa using h
    simp [h, this]

/-- Every entry of the import map is stored under its own name. -/
theorem processImports_names (imports : List String) :
    ∀ m m1 : GoMap Import, (∀ k v, m.get k = some v → v.Name = k) →
      processImports m imports = .ok m1 → ∀ k v, m1.get k = some v → v.Name = k := by
  induction imports with
  | nil =>
    intro m m1 hm h
    simp only [processImports, Except.ok.injEq] at h
    subst h
    exact hm
  | cons imp rest ih =>
    intro m m1 hm h
    unfold processImports at h
    split at h
    · rename_i name path _
      refine ih _ _ ?_ h
      intro k v hk
      rw [get_set] at hk
      by_cases e : k = name
      · rw [if_pos e] at hk
        rw [← Option.some.inj hk, e]
      · rw [if_neg e] at hk
        exact hm k v hk
    · simp at h

theorem finalizeImports_perm (importMap : GoMap Import) (order : List String)
    (l : List (Option Import)) (h : finalizeImports importMap order = some l) :
    l.Perm (order.map importMap.get) :=
  sortSlice_perm _ _ h

theorem finalizeImports_ascending (importMap : GoMap Import) (order : List String)
    (l : List (Option Import))
    (hinv : ∀ k v, importMap.get k = some v → v.Name = k) (hnd : order.Nodup)
    (h : finalizeImports importMap order = some l) : l.Pairwise aliasBefore := by
  apply sortSlice_strictly_ascending _ _ h
  rw [List.pairwise_map]
  refine List.Pairwise.imp ?_ hnd
  intro a b hab x y hx hy hxy
  apply hab
  rw [← hinv a x hx, ← hinv b y hy, hxy]

theorem finalizeImports_aliasIn (importMap : GoMap Import) (order : List String)
    (l : List (Option Import))
    (hinv : ∀ k v, importMap.get k = some v → v.Name = k)
    (h : finalizeImports importMap order = some l) (a : String) :
    aliasIn a l ↔ (importMap.get a).isSome = true ∧ a ∈ order := by
  have hp := finalizeImports_perm importMap order l h
  unfold aliasIn
  constructor
  · rintro ⟨imp, hmem, hname⟩
    have h1 := hp.subset hmem
    rw [List.mem_map] at h1
    obtain ⟨k, hk, hget⟩ := h1
    have h2 := hinv k imp hget
    rw [hname] at h2
    subst h2
    exact ⟨by simp [hget], hk⟩
  · rintro ⟨hsome, hmem⟩
    obtain ⟨imp, himp⟩ := Option.isSome_iff_exists.mp hsome
    refine ⟨imp, hp.symm.subset ?_, hinv a imp himp⟩
    rw [List.mem_map]
    exact ⟨a, hmem, himp⟩

/-- The import list is finalized whenever every visited key has an entry in the import
map. -/
theorem finalizeImports_returns (importMap : GoMap Import) (order : List String)
    (hs : ∀ a ∈ order, (importMap.get a).isSome = true) :
    ∃ l, finalizeImports importMap order = some l := by
  have hl : ∃ r : List Import, order.map importMap.get = r.map some := by
    induction order with
    | nil => exact ⟨[], rfl⟩
    | cons a rest ih =>
      obtain ⟨r, hr⟩ := ih (fun b hb => hs b (List.mem_cons_of_mem _ hb))
      obtain ⟨imp, himp⟩ := Option.isSome_iff_exists.mp (hs a (List.mem_cons_self _ _))
      exact ⟨imp :: r, by simp [himp, hr]⟩
  obtain ⟨r, hr⟩ := hl
  obtain ⟨s, h1, _, _⟩ := sortSlice_present r
  exact ⟨s.map some, by rw [finalizeImports, hr, h1]⟩

/-- What `run` has computed when it reaches the execution of the template. -/
theorem run_executed (w : World) (fl : Flags) (cases : Cases)
    (h : (run w fl).executed = some cases) :
    ∃ importMap sourceList sourceMap filenames st parsed imports,
      processImports [] fl.imports = .ok importMap ∧
        processSources [] [] fl.sources = .ok (sourceList, sourceMap) ∧
        w.filterFiles sourceList = .ok filenames ∧
        analyseFiles w.ParseFile sourceMap (initialState fl) [] filenames = (.ok st, parsed) ∧
        finalizeImports importMap (w.rangeOrder st.pkgs) = some imports ∧
        cases = { st.cases with Imports := imports } := by
  unfold run at h
  cases hI : processImports [] fl.imports with
  | error e => simp [hI] at h
  | ok importMap =>
    cases hS : processSources [] [] fl.sources with
    | error e => simp [hI, hS] at h
    | ok sl =>
      obtain ⟨sourceList, sourceMap⟩ := sl
      cases hF : w.filterFiles sourceList with
      | error msg => simp [hI, hS, hF] at h
      | ok filenames =>
        cases hC : (if fl.output ≠ "" then w.Create fl.output else none) with
        | some msg => simp only [hI, hS, hF, hC] at h; simp at h
        | none =>
          cases hA : analyseFiles w.ParseFile sourceMap (initialState fl) [] filenames with
          | mk res parsed =>
            cases res with
            | error e => simp only [hI, hS, hF, hC, hA] at h; simp at h
            | ok st =>
              cases hM : finalizeImports importMap (w.rangeOrder st.pkgs) with
              | none => simp only [hI, hS, hF, hC, hA, hM] at h; simp at h
              | some imports =>
                refine ⟨importMap, sourceList, sourceMap, filenames, st, parsed, imports,
                  rfl, rfl, hF, hA, hM, ?_⟩
                simp only [hI, hS, hF, hC, hA, hM] at h
                split at h
                · simpa using h.symm
                · split at h
                  · simpa using h.symm
                  · simpa using h.symm

end TestMain

/-! ## Classification of declarations -/

namespace TestMain

/-- C1, at the failing input: `func TestPair(a, b *testing.T)` has two parameters,
declared in one field, and returns nothing; the declaration loop counts the fields and
appends it to `Tests`. `func TestUnit(t *testing.T) ()` has one parameter of the right
type and no return value, and is not appended, because its result list is not nil. The
valid `TestFoo` is appended and the zero-parameter `Testify` is not. -/
theorem two_parameter_function_appended_to_tests :
    ast.NumFields funcTestPair.Typ.Params = 2
      ∧ (analyseDecl "x" (initialState emptyFlags) (.func funcTestPair)).cases.Tests =
          [{ Package := "x", Name := "TestPair" }]
      ∧ ast.NumFields funcTestUnit.Typ.Params = 1
      ∧ ast.NumFields (funcTestUnit.Typ.Results.getD []) = 0
      ∧ (analyseDecl "x" (initialState emptyFlags) (.func funcTestUnit)).cases.Tests = []
      ∧ (analyseDecl "x" (initialState emptyFlags) (.func funcTestFoo)).cases.Tests =
          [{ Package := "x", Name := "TestFoo" }]
      ∧ (analyseDecl "x" (initialState emptyFlags) (.func funcTestify)).cases.Tests = [] := by
  decide

/-- C2, at the failing input: `func BenchmarkPair(a, b *testing.B)` has two parameters,
declared in one field, and returns nothing; the declaration loop counts the fields and
appends it to `Benchmarks`. `func BenchmarkUnit(b *testing.B) ()` has one parameter of the
right type and no return value, and is not appended. The valid `BenchmarkFoo` is appended
and `BenchmarkFoo(b *testing.B) error` is not. -/
theorem two_parameter_function_appended_to_benchmarks :
    ast.NumFields funcBenchmarkPair.Typ.Params = 2
      ∧ (analyseDecl "x" (initialState emptyFlags) (.func funcBenchmarkPair)).cases.Benchmarks =
          [{ Package := "x", Name := "BenchmarkPair" }]
      ∧ ast.NumFields funcBenchmarkUnit.Typ.Params = 1
      ∧ ast.NumFields (funcBenchmarkUnit.Typ.Results.getD []) = 0
      ∧ (analyseDecl "x" (initialState emptyFlags) (.func funcBenchmarkUnit)).cases.Benchmarks =
          []
      ∧ (analyseDecl "x" (initialState emptyFlags) (.func funcBenchmarkFoo)).cases.Benchmarks =
          [{ Package := "x", Name := "BenchmarkFoo" }]
      ∧ (analyseDecl "x" (initialState emptyFlags)
          (.func funcBenchmarkFooError)).cases.Benchmarks = [] := by
  decide

/-- What the declaration loop does with a function declaration: it is appended to `Tests`
exactly when it has no receiver, its name starts with `Test` and is not `TestMain`, the
parameter list has one field of type `*<something>.T` and the result list is nil; it is
appended to `Benchmarks` under the same rule with `Benchmark` and `B`. -/
theorem analyseDecl_appends (pkg : String) (st : State) (fn : ast.FuncDecl) :
    (analyseDecl pkg st (.func fn)).cases.Tests =
        st.cases.Tests ++ (if isTestFunc fn then [{ Package := pkg, Name := fn.Name }] else [])
      ∧ (analyseDecl pkg st (.func fn)).cases.Benchmarks =
        st.cases.Benchmarks ++
          (if isBenchmarkFunc fn then [{ Package := pkg, Name := fn.Name }] else []) := by
  rw [analyseDecl_eq]
  exact ⟨rfl, rfl⟩

end TestMain

/-! ## Discovery order and the package reference of a file -/

namespace TestMain

theorem hasSuffix_iff (s suf : String) :
    strings.HasSuffix s suf = true ↔ ∃ lib : String, s = lib ++ suf := by
  unfold strings.HasSuffix
  rw [List.isSuffixOf_iff_suffix]
  constructor
  · rintro ⟨t, ht⟩
    refine ⟨String.mk t, String.ext ?_⟩
    rw [String.data_append]
    exact ht.symm
  · rintro ⟨lib, h⟩
    refine ⟨lib.toList, ?_⟩
    rw [h]
    exact (String.data_append lib suf).symm

/-- C9 as stated fails for `Examples`: `example_test.go` declares `ExampleB` before
`ExampleA`; `doc.Examples` returns its examples sorted by name, `A` (source position 1)
before `B` (source position 0), and `run` appends them in that order, so the list has
`ExampleA` before `ExampleB`. -/
theorem examples_not_in_declaration_order :
    examplesFile.Decls = [.func funcExampleB, .func funcExampleA]
      ∧ examplesFile.Examples.map doc.Example.Name = ["A", "B"]
      ∧ examplesFile.Examples.map doc.Example.Order = [1, 0]
      ∧ (analyseFile [("example_test.go", "x")] (initialState emptyFlags) "example_test.go"
          examplesFile).cases.Examples =
          [{ Package := "x", Name := "ExampleA", Output := "a\n", Unordered := false },
           { Package := "x", Name := "ExampleB", Output := "b\n", Unordered := false }] := by
  decide

/-- C9, amended: the loop over the files ends, when every file parses, in a state whose
`Tests` and `Benchmarks` are the concatenation, in file processing order, of the cases of
each file in declaration order, and whose `Examples` are the concatenation, in file
processing order, of the included examples of each file in the order `doc.Examples`
returned them; the lists found for a prefix of the file sequence are prefixes of the lists
found for the whole sequence, and no step of the analysis removes or reorders an element
of a list. -/
theorem cases_in_discovery_order (ParseFile : String → Except String File)
    (sourceMap : GoMap String) (fl : Flags) (fs1 fs2 : List (String × File))
    (hp : ∀ fp ∈ fs1 ++ fs2, ParseFile fp.1 = .ok fp.2) :
    ∃ st1 st2 : State,
      analyseFiles ParseFile sourceMap (initialState fl) [] (fs1.map Prod.fst) =
          (.ok st1, fs1.map Prod.fst)
        ∧ analyseFiles ParseFile sourceMap (initialState fl) [] ((fs1 ++ fs2).map Prod.fst) =
          (.ok st2, (fs1 ++ fs2).map Prod.fst)
        ∧ st2.cases.Tests =
          (fs1 ++ fs2).flatMap
            (fun fp => fp.2.Decls.flatMap (declTests (effectivePkg sourceMap fp.1 fp.2)))
        ∧ st2.cases.Benchmarks =
          (fs1 ++ fs2).flatMap
            (fun fp => fp.2.Decls.flatMap (declBenchmarks (effectivePkg sourceMap fp.1 fp.2)))
        ∧ st2.cases.Examples =
          (fs1 ++ fs2).flatMap
            (fun fp => fileExamples (effectivePkg sourceMap fp.1 fp.2) fp.2)
        ∧ st1.cases.Tests <+: st2.cases.Tests
        ∧ st1.cases.Benchmarks <+: st2.cases.Benchmarks
        ∧ st1.cases.Examples <+: st2.cases.Examples
        ∧ (∀ (pkg : String) (st : State) (d : ast.Decl),
            st.cases.Tests <+: (analyseDecl pkg st d).cases.Tests
              ∧ st.cases.Benchmarks <+: (analyseDecl pkg st d).cases.Benchmarks
              ∧ st.cases.Examples = (analyseDecl pkg st d).cases.Examples)
        ∧ (∀ (pkg : String) (st : State) (e : doc.Example),
            st.cases.Tests = (analyseExample pkg st e).cases.Tests
              ∧ st.cases.Benchmarks = (analyseExample pkg st e).cases.Benchmarks
              ∧ st.cases.Examples <+: (analyseExample pkg st e).cases.Examples) := by
  have hp1 : ∀ fp ∈ fs1, ParseFile fp.1 = .ok fp.2 :=
    fun fp h => hp fp (List.mem_append_left _ h)
  have h1 := analyseFiles_of_parsed ParseFile sourceMap fs1 hp1 (initialState fl) []
  have h2 := analyseFiles_of_parsed ParseFile sourceMap (fs1 ++ fs2) hp (initialState fl) []
  rw [List.nil_append] at h1 h2
  refine ⟨_, _, h1, h2, ?_, ?_, ?_, ?_, ?_, ?_, ?_, ?_⟩
  · rw [analyseParsed_tests]
    simp [initialState, fileTests]
  · rw [analyseParsed_benchmarks]
    simp [initialState, fileBenchmarks]
  · rw [analyseParsed_examples]
    simp [initialState]
  · rw [analyseParsed_append, analyseParsed_tests sourceMap fs2]
    exact List.prefix_append _ _
  · rw [analyseParsed_append, analyseParsed_benchmarks sourceMap fs2]
    exact List.prefix_append _ _
  · rw [analyseParsed_append, analyseParsed_examples sourceMap fs2]
    exact List.prefix_append _ _
  · intro pkg st d
    rw [analyseDecl_eq]
    exact ⟨List.prefix_append _ _, List.prefix_append _ _, rfl⟩
  · intro pkg st e
    rw [analyseExample_eq]
    exact ⟨rfl, rfl, List.prefix_append _ _⟩

theorem cases_in_discovery_order_witness :
    ∃ st1 st2 : State,
      analyseFiles scenarioWorld.ParseFile scenarioSourceMap (initialState scenarioFlags) []
          ([("lib.go", libFile)].map Prod.fst) =
          (.ok st1, [("lib.go", libFile)].map Prod.fst)
        ∧ analyseFiles scenarioWorld.ParseFile scenarioSourceMap (initialState scenarioFlags) []
          (([("lib.go", libFile)] ++ [("lib_external_test.go", libExternalTestFile)]).map
            Prod.fst) =
          (.ok st2,
            ([("lib.go", libFile)] ++ [("lib_external_test.go", libExternalTestFile)]).map
              Prod.fst)
        ∧ st2.cases.Tests =
          ([("lib.go", libFile)] ++ [("lib_external_test.go", libExternalTestFile)]).flatMap
            (fun fp =>
              fp.2.Decls.flatMap (declTests (effectivePkg scenarioSourceMap fp.1 fp.2)))
        ∧ st2.cases.Benchmarks =
          ([("lib.go", libFile)] ++ [("lib_external_test.go", libExternalTestFile)]).flatMap
            (fun fp =>
              fp.2.Decls.flatMap (declBenchmarks (effectivePkg scenarioSourceMap fp.1 fp.2)))
        ∧ st2.cases.Examples =
          ([("lib.go", libFile)] ++ [("lib_external_test.go", libExternalTestFile)]).flatMap
            (fun fp => fileExamples (effectivePkg scenarioSourceMap fp.1 fp.2) fp.2)
        ∧ st1.cases.Tests <+: st2.cases.Tests
        ∧ st1.cases.Benchmarks <+: st2.cases.Benchmarks
        ∧ st1.cases.Examples <+: st2.cases.Examples
        ∧ (∀ (pkg : String) (st : State) (d : ast.Decl),
            st.cases.Tests <+: (analyseDecl pkg st d).cases.Tests
              ∧ st.cases.Benchmarks <+: (analyseDecl pkg st d).cases.Benchmarks
              ∧ st.cases.Examples = (analyseDecl pkg st d).cases.Examples)
        ∧ (∀ (pkg : String) (st : State) (e : doc.Example),
            st.cases.Tests = (analyseExample pkg st e).cases.Tests
              ∧ st.cases.Benchmarks = (analyseExample pkg st e).cases.Benchmarks
              ∧ st.cases.Examples <+: (analyseExample pkg st e).cases.Examples) :=
  cases_in_discovery_order scenarioWorld.ParseFile scenarioSourceMap scenarioFlags
    [("lib.go", libFile)] [("lib_external_test.go", libExternalTestFile)]
    (by
      intro fp h
      simp only [List.cons_append, List.nil_append, List.mem_cons, List.not_mem_nil,
        or_false] at h
      rcases h with h | h <;> subst h <;> rfl)

/-- C10: for a file with caller-supplied alias `a`, the package reference is `a ++ "_test"`
when the package name of the file is `<libraryName>_test` for some library name, and `a`
otherwise; every test, benchmark and example the file adds carries this reference, a
`TestMain` of the file is registered under it, and it is the only key the file can add to
the used-set. -/
theorem effective_package_reference (sourceMap : GoMap String) (st : State) (f : String)
    (parse : File) (a : String) (ha : sourceMap.get f = some a) :
    ((∃ lib : String, parse.Name = lib ++ "_test") →
        effectivePkg sourceMap f parse = a ++ "_test")
      ∧ ((¬ ∃ lib : String, parse.Name = lib ++ "_test") → effectivePkg sourceMap f parse = a)
      ∧ (∃ ts bs es,
          (analyseFile sourceMap st f parse).cases.Tests = st.cases.Tests ++ ts
            ∧ (analyseFile sourceMap st f parse).cases.Benchmarks = st.cases.Benchmarks ++ bs
            ∧ (analyseFile sourceMap st f parse).cases.Examples = st.cases.Examples ++ es
            ∧ (∀ t ∈ ts, t.Package = effectivePkg sourceMap f parse)
            ∧ (∀ b ∈ bs, b.Package = effectivePkg sourceMap f parse)
            ∧ (∀ e ∈ es, e.Package = effectivePkg sourceMap f parse))
      ∧ ((analyseFile sourceMap st f parse).cases.TestMain = st.cases.TestMain
          ∨ (analyseFile sourceMap st f parse).cases.TestMain =
            effectivePkg sourceMap f parse ++ "." ++ "TestMain")
      ∧ (∀ p ∈ (analyseFile sourceMap st f parse).pkgs,
          p ∈ st.pkgs ∨ p = effectivePkg sourceMap f parse) := by
  refine ⟨?_, ?_, ?_, ?_, ?_⟩
  · intro h
    have hs := (hasSuffix_iff parse.Name "_test").mpr h
    simp [effectivePkg, ha, hs]
  · intro h
    have hs : strings.HasSuffix parse.Name "_test" = false := by
      cases hb : strings.HasSuffix parse.Name "_test" with
      | false => rfl
      | true => exact absurd ((hasSuffix_iff parse.Name "_test").mp hb) h
    simp [effectivePkg, ha, hs]
  · refine ⟨fileTests (effectivePkg sourceMap f parse) parse,
      fileBenchmarks (effectivePkg sourceMap f parse) parse,
      fileExamples (effectivePkg sourceMap f parse) parse, ?_, ?_, ?_, ?_, ?_, ?_⟩
    · rw [analyseFile_eq]
    · rw [analyseFile_eq]
    · rw [analyseFile_eq]
    · intro t ht
      simp only [fileTests, List.mem_flatMap] at ht
      obtain ⟨d, _, hd⟩ := ht
      cases d with
      | gen => simp [declTests] at hd
      | func fn =>
        simp only [declTests] at hd
        split at hd
        · rw [List.mem_singleton] at hd
          rw [hd]
        · simp at hd
    · intro t ht
      simp only [fileBenchmarks, List.mem_flatMap] at ht
      obtain ⟨d, _, hd⟩ := ht
      cases d with
      | gen => simp [declBenchmarks] at hd
      | func fn =>
        simp only [declBenchmarks] at hd
        split at hd
        · rw [List.mem_singleton] at hd
          rw [hd]
        · simp at hd
    · intro e he
      simp only [fileExamples, List.mem_map] at he
      obtain ⟨d, _, hd⟩ := he
      rw [← hd]
  · rw [analyseFile_eq]
    by_cases h : parse.Decls.any declIsTestMain = true
    · right; simp [h]
    · left; simp [h]
  · intro p hp
    rw [analyseFile_eq] at hp
    by_cases h : fileContributes parse = true
    · simp only [h, if_true] at hp
      exact (mem_markUsed _ _ _).mp hp
    · left
      simpa [h] using hp

theorem effective_package_reference_witness :
    ((∃ lib : String, libExternalTestFile.Name = lib ++ "_test") →
        effectivePkg scenarioSourceMap "lib_external_test.go" libExternalTestFile =
          "x" ++ "_test")
      ∧ ((¬ ∃ lib : String, libExternalTestFile.Name = lib ++ "_test") →
          effectivePkg scenarioSourceMap "lib_external_test.go" libExternalTestFile = "x")
      ∧ (∃ ts bs es,
          (analyseFile scenarioSourceMap (initialState scenarioFlags) "lib_external_test.go"
              libExternalTestFile).cases.Tests =
              (initialState scenarioFlags).cases.Tests ++ ts
            ∧ (analyseFile scenarioSourceMap (initialState scenarioFlags)
              "lib_external_test.go" libExternalTestFile).cases.Benchmarks =
              (initialState scenarioFlags).cases.Benchmarks ++ bs
            ∧ (analyseFile scenarioSourceMap (initialState scenarioFlags)
              "lib_external_test.go" libExternalTestFile).cases.Examples =
              (initialState scenarioFlags).cases.Examples ++ es
            ∧ (∀ t ∈ ts, t.Package =
              effectivePkg scenarioSourceMap "lib_external_test.go" libExternalTestFile)
            ∧ (∀ b ∈ bs, b.Package =
              effectivePkg scenarioSourceMap "lib_external_test.go" libExternalTestFile)
            ∧ (∀ e ∈ es, e.Package =
              effectivePkg scenarioSourceMap "lib_external_test.go" libExternalTestFile))
      ∧ ((analyseFile scenarioSourceMap (initialState scenarioFlags) "lib_external_test.go"
            libExternalTestFile).cases.TestMain = (initialState scenarioFlags).cases.TestMain
          ∨ (analyseFile scenarioSourceMap (initialState scenarioFlags)
            "lib_external_test.go" libExternalTestFile).cases.TestMain =
            effectivePkg scenarioSourceMap "lib_external_test.go" libExternalTestFile ++ "."
              ++ "TestMain")
      ∧ (∀ p ∈ (analyseFile scenarioSourceMap (initialState scenarioFlags)
            "lib_external_test.go" libExternalTestFile).pkgs,
          p ∈ (initialState scenarioFlags).pkgs ∨
            p = effectivePkg scenarioSourceMap "lib_external_test.go" libExternalTestFile) :=
  effective_package_reference scenarioSourceMap (initialState scenarioFlags)
    "lib_external_test.go" libExternalTestFile "x" (by decide)

end TestMain

/-! ## The finalized import list of `run` -/

namespace TestMain

/-- An alias has an entry in the import map exactly when an import option supplies it. -/
theorem processImports_get (imports : List String) :
    ∀ (m m1 : GoMap Import), processImports m imports = .ok m1 → ∀ a : String,
      ((m1.get a).isSome = true ↔
        ((m.get a).isSome = true ∨
          ∃ imp ∈ imports, ∃ path, strings.Split imp '=' = [a, path])) := by
  induction imports with
  | nil =>
    intro m m1 h a
    simp only [processImports, Except.ok.injEq] at h
    subst h
    simp
  | cons imp rest ih =>
    intro m m1 h a
    unfold processImports at h
    split at h
    · rename_i name path heq
      rw [ih _ _ h a, get_set]
      by_cases e : a = name
      · subst e
        simp only [if_true, Option.isSome_some, true_or, true_iff]
        exact Or.inr ⟨imp, List.mem_cons_self _ _, path, heq⟩
      · simp only [if_neg e, List.mem_cons, exists_eq_or_imp]
        have hno : ¬ ∃ p, strings.Split imp '=' = [a, p] := by
          rintro ⟨p, hp⟩
          rw [heq] at hp
          simp only [List.cons.injEq, and_true] at hp
          exact e hp.1.symm
        constructor
        · rintro (h1 | h1)
          · exact Or.inl h1
          · exact Or.inr (Or.inr h1)
        · rintro (h1 | h1 | h1)
          · exact Or.inl h1
          · exact absurd h1 hno
          · exact Or.inr h1
    · simp at h

/-- When `run` executes the template after parsing the given files, the import list is
the finalized list of the keys that the analysis of these files marked as used. -/
theorem run_executed_parsed (w : World) (fl : Flags) (importMap : GoMap Import)
    (sourceList : List String) (sourceMap : GoMap String) (files : List (String × File))
    (cases : Cases)
    (hI : processImports [] fl.imports = .ok importMap)
    (hS : processSources [] [] fl.sources = .ok (sourceList, sourceMap))
    (hF : w.filterFiles sourceList = .ok (files.map Prod.fst))
    (hP : ∀ fp ∈ files, w.ParseFile fp.1 = .ok fp.2)
    (h : (run w fl).executed = some cases) :
    ∃ imports,
      finalizeImports importMap
          (w.rangeOrder (analyseParsed sourceMap (initialState fl) files).pkgs) = some imports
        ∧ cases =
          { (analyseParsed sourceMap (initialState fl) files).cases with Imports := imports } := by
  obtain ⟨im, sl, sm, fns, st, parsed, imports, h1, h2, h3, h4, h5, h6⟩ :=
    run_executed w fl cases h
  rw [hI] at h1
  cases h1
  rw [hS] at h2
  cases h2
  rw [hF] at h3
  cases h3
  rw [analyseFiles_of_parsed w.ParseFile sourceMap files hP] at h4
  cases h4
  exact ⟨imports, h5, h6⟩

/-- The template is executed as soon as the options are well-formed, the files parse, the
sink can be created and the import list is finalized. -/
theorem run_executes (w : World) (fl : Flags) (importMap : GoMap Import)
    (sourceList : List String) (sourceMap : GoMap String) (files : List (String × File))
    (imports : List (Option Import))
    (hI : processImports [] fl.imports = .ok importMap)
    (hS : processSources [] [] fl.sources = .ok (sourceList, sourceMap))
    (hF : w.filterFiles sourceList = .ok (files.map Prod.fst))
    (hP : ∀ fp ∈ files, w.ParseFile fp.1 = .ok fp.2)
    (hC : fl.output ≠ "" → w.Create fl.output = none)
    (hM : finalizeImports importMap
      (w.rangeOrder (analyseParsed sourceMap (initialState fl) files).pkgs) = some imports) :
    (run w fl).executed =
      some { (analyseParsed sourceMap (initialState fl) files).cases with
        Imports := imports } := by
  have hC1 : (if fl.output ≠ "" then w.Create fl.output else none) = none := by
    by_cases ho : fl.output ≠ ""
    · rw [if_pos ho]; exact hC ho
    · rw [if_neg ho]
  have hA := analyseFiles_of_parsed w.ParseFile sourceMap files hP (initialState fl) []
  unfold run
  simp only [hI, hS, hF, hC1, hA, hM]
  split
  · rfl
  · split <;> rfl

/-- The template is executed when the options are well-formed, the files parse, the sink
can be created and every package reference marked as used is supplied by an import
option. -/
theorem run_executes_of_supplied (w : World) (fl : Flags) (importMap : GoMap Import)
    (sourceList : List String) (sourceMap : GoMap String) (files : List (String × File))
    (hperm : ∀ ks, (w.rangeOrder ks).Perm ks)
    (hI : processImports [] fl.imports = .ok importMap)
    (hS : processSources [] [] fl.sources = .ok (sourceList, sourceMap))
    (hF : w.filterFiles sourceList = .ok (files.map Prod.fst))
    (hP : ∀ fp ∈ files, w.ParseFile fp.1 = .ok fp.2)
    (hall : ∀ fp ∈ files, fileContributes fp.2 = true →
      ∃ imp ∈ fl.imports, ∃ path,
        strings.Split imp '=' = [effectivePkg sourceMap fp.1 fp.2, path])
    (hC : fl.output ≠ "" → w.Create fl.output = none) :
    ∃ cases, (run w fl).executed = some cases := by
  have hs : ∀ a ∈ w.rangeOrder (analyseParsed sourceMap (initialState fl) files).pkgs,
      (importMap.get a).isSome = true := by
    intro a ha
    rw [(hperm _).mem_iff, analyseParsed_mem_pkgs] at ha
    rcases ha with ha | ⟨fp, hfp, hc, he⟩
    · simp [initialState] at ha
    · rw [processImports_get fl.imports [] importMap hI a, ← he]
      exact Or.inr (hall fp hfp hc)
  obtain ⟨imports, hM⟩ := finalizeImports_returns importMap _ hs
  exact ⟨_, run_executes w fl importMap sourceList sourceMap files imports hI hS hF hP hC hM⟩

/-- C8: whenever `run` executes the template, the import list it has finalized is strictly
ascending by alias with every compared entry present, so no two entries have the same
alias; this holds for any options, any files and any order in which the keys of the
used-set are visited. The template is executed, on such a list, whenever the options are
well-formed, the files parse, the sink can be created and every used package reference
is supplied by an import option. -/
theorem finalized_imports_strictly_ascending (w : World) (fl : Flags)
    (hperm : ∀ ks, (w.rangeOrder ks).Perm ks) :
    (∀ cases, (run w fl).executed = some cases →
        cases.Imports.Pairwise aliasBefore
          ∧ cases.Imports.Pairwise
            (fun a b => ∀ x y, a = some x → b = some y → x.Name ≠ y.Name))
      ∧ (∀ (importMap : GoMap Import) (sourceList : List String) (sourceMap : GoMap String)
          (files : List (String × File)),
          processImports [] fl.imports = .ok importMap →
          processSources [] [] fl.sources = .ok (sourceList, sourceMap) →
          w.filterFiles sourceList = .ok (files.map Prod.fst) →
          (∀ fp ∈ files, w.ParseFile fp.1 = .ok fp.2) →
          (∀ fp ∈ files, fileContributes fp.2 = true →
            ∃ imp ∈ fl.imports, ∃ path,
              strings.Split imp '=' = [effectivePkg sourceMap fp.1 fp.2, path]) →
          (fl.output ≠ "" → w.Create fl.output = none) →
          ∃ cases, (run w fl).executed = some cases) := by
  refine ⟨?_, ?_⟩
  · intro cases h
    obtain ⟨im, sl, sm, fns, st, parsed, imports, h1, h2, h3, h4, h5, h6⟩ :=
      run_executed w fl cases h
    obtain ⟨files, _, _, hst, _⟩ := analyseFiles_ok w.ParseFile sm fns _ _ _ _ h4
    have hnd : st.pkgs.Nodup := by
      rw [hst]
      exact analyseParsed_nodup_pkgs sm files (initialState fl) List.nodup_nil
    have hinv : ∀ k v, im.get k = some v → v.Name = k :=
      processImports_names fl.imports [] im (by intro k v hk; simp [GoMap.get] at hk) h1
    have hasc : cases.Imports.Pairwise aliasBefore := by
      rw [h6]
      exact finalizeImports_ascending im (w.rangeOrder st.pkgs) imports hinv
        ((hperm st.pkgs).nodup_iff.mpr hnd) h5
    refine ⟨hasc, hasc.imp ?_⟩
    intro a b hab x y hx hy hxy
    subst hx hy
    simp only [aliasBefore] at hab
    rw [hxy] at hab
    exact lt_irrefl _ hab
  · intro importMap sourceList sourceMap files hI hS hF hP hall hC
    exact run_executes_of_supplied w fl importMap sourceList sourceMap files hperm hI hS hF hP
      hall hC

theorem finalized_imports_strictly_ascending_witness :
    (run scenarioWorld scenarioFlags).executed = some scenarioCases
      ∧ scenarioCases.Imports.Pairwise aliasBefore
      ∧ scenarioCases.Imports.Pairwise
        (fun a b => ∀ x y, a = some x → b = some y → x.Name ≠ y.Name) :=
  ⟨by decide,
    (finalized_imports_strictly_ascending scenarioWorld scenarioFlags
      (fun ks => List.reverse_perm ks)).1 scenarioCases (by decide)⟩

/-- C7 as stated fails: with only `lib_external_test.go` (package `lib_test`, alias `x`,
a valid `TestBar`) and only the alias `x` supplied, the included test has the package
reference `x_test`, and the finalized import list is the single missing entry, in which
the alias `x_test` does not appear. With `lib.go` added the sort compares the missing
entry and `run` panics. -/
theorem used_reference_missing_from_imports :
    (run scenarioWorld externalOnlyFlags).executed.map Cases.Tests =
        some [{ Package := "x_test", Name := "TestBar" }]
      ∧ (run scenarioWorld externalOnlyFlags).executed.map Cases.Imports = some [none]
      ∧ ¬ aliasIn "x_test" [none]
      ∧ (run scenarioWorld missingAliasFlags).status = .panicked := by
  refine ⟨by decide, by decide, ?_, by decide⟩
  rintro ⟨imp, h, _⟩
  simp at h

/-- C7, amended: for well-formed options and files that all parse, whenever `run` executes
the template an alias appears in the finalized import list exactly when an import option
supplies it and it is the package reference of a file with an included example, a
`TestMain`, a test or a benchmark. When every such reference is supplied and the sink can
be created, the template is executed and the aliases of the list are exactly those
references. A file without such a function or example adds no reference, as the file
whose only functions are `Testify()` and `BenchmarkFoo(b *testing.B) error`, and in the
scenario the list is exactly the two entries `x` and `x_test`. -/
theorem imports_are_supplied_used_references (w : World) (fl : Flags)
    (importMap : GoMap Import) (sourceList : List String) (sourceMap : GoMap String)
    (files : List (String × File))
    (hperm : ∀ ks, (w.rangeOrder ks).Perm ks)
    (hI : processImports [] fl.imports = .ok importMap)
    (hS : processSources [] [] fl.sources = .ok (sourceList, sourceMap))
    (hF : w.filterFiles sourceList = .ok (files.map Prod.fst))
    (hP : ∀ fp ∈ files, w.ParseFile fp.1 = .ok fp.2) :
    (∀ cases, (run w fl).executed = some cases → ∀ a : String,
        (aliasIn a cases.Imports ↔
          ((∃ imp ∈ fl.imports, ∃ path, strings.Split imp '=' = [a, path]) ∧
            ∃ fp ∈ files, fileContributes fp.2 = true ∧ effectivePkg sourceMap fp.1 fp.2 = a)))
      ∧ ((∀ fp ∈ files, fileContributes fp.2 = true →
            ∃ imp ∈ fl.imports, ∃ path,
              strings.Split imp '=' = [effectivePkg sourceMap fp.1 fp.2, path]) →
          (fl.output ≠ "" → w.Create fl.output = none) →
          ∃ cases, (run w fl).executed = some cases ∧ ∀ a : String,
            (aliasIn a cases.Imports ↔
              ∃ fp ∈ files, fileContributes fp.2 = true ∧ effectivePkg sourceMap fp.1 fp.2 = a))
      ∧ (∀ (st : State) (f : String) (parse : File), fileContributes parse = false →
          (analyseFile sourceMap st f parse).pkgs = st.pkgs)
      ∧ fileContributes helpersFile = false
      ∧ (run scenarioWorld scenarioFlags).executed.map Cases.Imports =
          some [some { Name := "x", Path := "example.com/lib" },
                some { Name := "x_test", Path := "example.com/lib" }] := by
  have hinv : ∀ k v, importMap.get k = some v → v.Name = k :=
    processImports_names fl.imports [] importMap (by intro k v hk; simp [GoMap.get] at hk) hI
  have hsup : ∀ a : String, ((importMap.get a).isSome = true ↔
      ∃ imp ∈ fl.imports, ∃ path, strings.Split imp '=' = [a, path]) := by
    intro a
    rw [processImports_get fl.imports [] importMap hI a]
    simp [GoMap.get]
  have hused : ∀ a : String,
      (a ∈ w.rangeOrder (analyseParsed sourceMap (initialState fl) files).pkgs ↔
        ∃ fp ∈ files, fileContributes fp.2 = true ∧ effectivePkg sourceMap fp.1 fp.2 = a) := by
    intro a
    rw [(hperm _).mem_iff, analyseParsed_mem_pkgs]
    simp [initialState]
  have hiff : ∀ cases, (run w fl).executed = some cases → ∀ a : String,
      (aliasIn a cases.Imports ↔
        ((∃ imp ∈ fl.imports, ∃ path, strings.Split imp '=' = [a, path]) ∧
          ∃ fp ∈ files, fileContributes fp.2 = true ∧ effectivePkg sourceMap fp.1 fp.2 = a)) := by
    intro cases h a
    obtain ⟨imports, hM, hc⟩ :=
      run_executed_parsed w fl importMap sourceList sourceMap files cases hI hS hF hP h
    rw [hc]
    show aliasIn a imports ↔ _
    rw [finalizeImports_aliasIn importMap _ imports hinv hM a, hsup a, hused a]
  refine ⟨hiff, ?_, ?_, by decide, by decide⟩
  · intro hall hC
    have hs : ∀ a ∈ w.rangeOrder (analyseParsed sourceMap (initialState fl) files).pkgs,
        (importMap.get a).isSome = true := by
      intro a ha
      obtain ⟨fp, hfp, hc, he⟩ := (hused a).mp ha
      rw [hsup a, ← he]
      exact hall fp hfp hc
    obtain ⟨imports, hM⟩ := finalizeImports_returns importMap _ hs
    have hex := run_executes w fl importMap sourceList sourceMap files imports hI hS hF hP hC hM
    refine ⟨_, hex, ?_⟩
    intro a
    rw [hiff _ hex a]
    constructor
    · intro h; exact h.2
    · intro h
      refine ⟨?_, h⟩
      obtain ⟨fp, hfp, hc, he⟩ := h
      rw [← he]
      exact hall fp hfp hc
  · intro st f parse hc
    rw [analyseFile_eq]
    simp [hc]

theorem imports_are_supplied_used_references_witness :
    (∀ cases, (run scenarioWorld scenarioFlags).executed = some cases → ∀ a : String,
        (aliasIn a cases.Imports ↔
          ((∃ imp ∈ scenarioFlags.imports, ∃ path, strings.Split imp '=' = [a, path]) ∧
            ∃ fp ∈ scenarioFiles, fileContributes fp.2 = true ∧
              effectivePkg scenarioSourceMap fp.1 fp.2 = a)))
      ∧ ((∀ fp ∈ scenarioFiles, fileContributes fp.2 = true →
            ∃ imp ∈ scenarioFlags.imports, ∃ path,
              strings.Split imp '=' = [effectivePkg scenarioSourceMap fp.1 fp.2, path]) →
          (scenarioFlags.output ≠ "" → scenarioWorld.Create scenarioFlags.output = none) →
          ∃ cases, (run scenarioWorld scenarioFlags).executed = some cases ∧ ∀ a : String,
            (aliasIn a cases.Imports ↔
              ∃ fp ∈ scenarioFiles, fileContributes fp.2 = true ∧
                effectivePkg scenarioSourceMap fp.1 fp.2 = a))
      ∧ (∀ (st : State) (f : String) (parse : File), fileContributes parse = false →
          (analyseFile scenarioSourceMap st f parse).pkgs = st.pkgs)
      ∧ fileContributes helpersFile = false
      ∧ (run scenarioWorld scenarioFlags).executed.map Cases.Imports =
          some [some { Name := "x", Path := "example.com/lib" },
                some { Name := "x_test", Path := "example.com/lib" }] :=
  imports_are_supplied_used_references scenarioWorld scenarioFlags scenarioImportMap
    ["lib.go", "lib_external_test.go"] scenarioSourceMap scenarioFiles
    (fun ks => List.reverse_perm ks) rfl rfl rfl
    (by
      intro fp h
      simp only [scenarioFiles, List.mem_cons, List.not_mem_nil, or_false] at h
      rcases h with h | h <;> subst h <;> rfl)

end TestMain

/-! ## `TestMain`, methods and examples -/

namespace TestMain

/-- C11: a top-level function named exactly `TestMain`, whatever its parameters and
results, is registered as the entry point `<package reference>.TestMain`, marks the
package reference as used, and leaves `Tests`, `Benchmarks` and `Examples` as they were. -/
theorem testMain_registered_not_a_case (pkg : String) (st : State) (fn : ast.FuncDecl)
    (hr : fn.Recv = none) (hn : fn.Name = "TestMain") :
    (analyseDecl pkg st (.func fn)).cases.TestMain = pkg ++ ".TestMain"
      ∧ pkg ∈ (analyseDecl pkg st (.func fn)).pkgs
      ∧ (analyseDecl pkg st (.func fn)).pkgs = markUsed st.pkgs pkg
      ∧ (analyseDecl pkg st (.func fn)).cases.Tests = st.cases.Tests
      ∧ (analyseDecl pkg st (.func fn)).cases.Benchmarks = st.cases.Benchmarks
      ∧ (analyseDecl pkg st (.func fn)).cases.Examples = st.cases.Examples := by
  have e : pkg ++ "." ++ "TestMain" = pkg ++ ".TestMain" := by
    rw [String.append_assoc]
    rfl
  simp only [analyseDecl, hr, hn, Option.isSome_none, if_true, Bool.false_eq_true, if_false, e]
  refine ⟨trivial, ?_, trivial, trivial, trivial, trivial⟩
  exact (mem_markUsed _ _ _).mpr (Or.inr rfl)

theorem testMain_registered_not_a_case_witness :
    (analyseDecl "x" (initialState emptyFlags) (.func funcTestMainOdd)).cases.TestMain =
        "x" ++ ".TestMain"
      ∧ "x" ∈ (analyseDecl "x" (initialState emptyFlags) (.func funcTestMainOdd)).pkgs
      ∧ (analyseDecl "x" (initialState emptyFlags) (.func funcTestMainOdd)).pkgs =
        markUsed (initialState emptyFlags).pkgs "x"
      ∧ (analyseDecl "x" (initialState emptyFlags) (.func funcTestMainOdd)).cases.Tests =
        (initialState emptyFlags).cases.Tests
      ∧ (analyseDecl "x" (initialState emptyFlags) (.func funcTestMainOdd)).cases.Benchmarks =
        (initialState emptyFlags).cases.Benchmarks
      ∧ (analyseDecl "x" (initialState emptyFlags) (.func funcTestMainOdd)).cases.Examples =
        (initialState emptyFlags).cases.Examples :=
  testMain_registered_not_a_case "x" (initialState emptyFlags) funcTestMainOdd rfl rfl

/-- C13: an example that `doc.Examples` extracted is appended to `Examples` exactly when
its expected output is not empty or it is marked as having an empty expected output; it is
recorded with the name `Example` followed by the extracted name, the package reference of
the file, and its expected output and unordered flag as they are. The examples of a file
are those of its extracted examples that satisfy the condition, recorded this way. -/
theorem example_included_iff_output (pkg : String) (st : State) (e : doc.Example)
    (parse : File) (sourceMap : GoMap String) (f : String) :
    (analyseExample pkg st e).cases.Examples =
        st.cases.Examples ++
          (if e.Output ≠ "" ∨ e.EmptyOutput = true then
            [{ Package := pkg, Name := "Example" ++ e.Name, Output := e.Output,
               Unordered := e.Unordered }]
          else [])
      ∧ (analyseExample pkg st e).pkgs =
          (if e.Output ≠ "" ∨ e.EmptyOutput = true then markUsed st.pkgs pkg else st.pkgs)
      ∧ (analyseFile sourceMap st f parse).cases.Examples =
          st.cases.Examples ++
            (parse.Examples.filter
              (fun x => decide (x.Output ≠ "" ∨ x.EmptyOutput = true))).map
              (fun x => { Package := effectivePkg sourceMap f parse, Name := "Example" ++ x.Name,
                          Output := x.Output, Unordered := x.Unordered }) := by
  have hinc : ∀ x : doc.Example,
      isIncludedExample x = decide (x.Output ≠ "" ∨ x.EmptyOutput = true) := by
    intro x
    unfold isIncludedExample
    by_cases h1 : x.Output = ""
    · cases h2 : x.EmptyOutput <;> simp [h1, h2]
    · cases h2 : x.EmptyOutput <;> simp [h1, h2]
  refine ⟨?_, ?_, ?_⟩
  · rw [analyseExample_eq, hinc]
    simp only [decide_eq_true_eq]
  · rw [analyseExample_eq, hinc]
    simp only [decide_eq_true_eq]
  · rw [analyseFile_eq]
    simp only [fileExamples]
    congr 2
    apply List.filter_congr
    intro x _
    exact hinc x

/-- C17: a function declaration with a receiver, whatever its name and signature, leaves
the whole analysis state as it was: `Tests`, `Benchmarks`, the entry point and the
used-set. -/
theorem method_never_candidate (pkg : String) (st : State) (fn : ast.FuncDecl)
    (recv : List ast.Field) (hr : fn.Recv = some recv) :
    analyseDecl pkg st (.func fn) = st
      ∧ (analyseDecl pkg st (.func fn)).cases.Tests = st.cases.Tests
      ∧ (analyseDecl pkg st (.func fn)).cases.Benchmarks = st.cases.Benchmarks
      ∧ (analyseDecl pkg st (.func fn)).cases.TestMain = st.cases.TestMain
      ∧ (analyseDecl pkg st (.func fn)).pkgs = st.pkgs := by
  have h : analyseDecl pkg st (.func fn) = st := by
    simp [analyseDecl, hr]
  rw [h]
  exact ⟨rfl, rfl, rfl, rfl, rfl⟩

theorem method_never_candidate_witness :
    analyseDecl "x" (initialState emptyFlags) (.func methodTestFoo) = initialState emptyFlags
      ∧ (analyseDecl "x" (initialState emptyFlags) (.func methodTestFoo)).cases.Tests =
        (initialState emptyFlags).cases.Tests
      ∧ (analyseDecl "x" (initialState emptyFlags) (.func methodTestFoo)).cases.Benchmarks =
        (initialState emptyFlags).cases.Benchmarks
      ∧ (analyseDecl "x" (initialState emptyFlags) (.func methodTestFoo)).cases.TestMain =
        (initialState emptyFlags).cases.TestMain
      ∧ (analyseDecl "x" (initialState emptyFlags) (.func methodTestFoo)).pkgs =
        (initialState emptyFlags).pkgs :=
  method_never_candidate "x" (initialState emptyFlags) methodTestFoo
    [{ Names := ["s"], Typ := .StarExpr (.Ident "Suite") }] rfl

end TestMain

/-! ## How `run` ends -/

namespace TestMain

theorem analyseParsed_testMain_unchanged (sourceMap : GoMap String)
    (files : List (String × File)) :
    ∀ st : State, (∀ q ∈ files, q.2.Decls.any declIsTestMain = false) →
      (analyseParsed sourceMap st files).cases.TestMain = st.cases.TestMain := by
  induction files with
  | nil => intro st _; simp [analyseParsed]
  | cons fp fs ih =>
    intro st h
    have h1 := ih (analyseFile sourceMap st fp.1 fp.2)
      (fun q hq => h q (List.mem_cons_of_mem _ hq))
    simp only [analyseParsed, List.foldl_cons] at h1 ⊢
    rw [h1, analyseFile_eq]
    simp [h fp (List.mem_cons_self _ _)]

/-- After the loop over the files the entry point is the `TestMain` of the last file that
declares one. -/
theorem analyseParsed_testMain_last (sourceMap : GoMap String) (st : State)
    (fs1 fs2 : List (String × File)) (fp : String × File)
    (hmain : fp.2.Decls.any declIsTestMain = true)
    (hlast : ∀ q ∈ fs2, q.2.Decls.any declIsTestMain = false) :
    (analyseParsed sourceMap st (fs1 ++ fp :: fs2)).cases.TestMain =
      effectivePkg sourceMap fp.1 fp.2 ++ ".TestMain" := by
  have e : effectivePkg sourceMap fp.1 fp.2 ++ "." ++ "TestMain" =
      effectivePkg sourceMap fp.1 fp.2 ++ ".TestMain" := by
    rw [String.append_assoc]
    rfl
  rw [analyseParsed_append]
  have h2 : analyseParsed sourceMap (analyseParsed sourceMap st fs1) (fp :: fs2) =
      analyseParsed sourceMap
        (analyseFile sourceMap (analyseParsed sourceMap st fs1) fp.1 fp.2) fs2 := by
    simp [analyseParsed]
  rw [h2, analyseParsed_testMain_unchanged sourceMap fs2 _ hlast, analyseFile_eq]
  simp [hmain, e]

/-- The loop over the file names stops at the first file that fails to parse, with the
error naming the file and the cause, after handing to the parser that file and the files
before it. -/
theorem analyseFiles_error (ParseFile : String → Except String File)
    (sourceMap : GoMap String) (pre : List (String × File)) (f msg : String)
    (post : List String)
    (hpre : ∀ fp ∈ pre, ParseFile fp.1 = .ok fp.2) (hf : ParseFile f = .error msg) :
    ∀ (st : State) (log : List String),
      analyseFiles ParseFile sourceMap st log (pre.map Prod.fst ++ f :: post) =
        (.error (.parseFile f msg), log ++ pre.map Prod.fst ++ [f]) := by
  induction pre with
  | nil => intro st log; simp [analyseFiles, hf]
  | cons fp fs ih =>
    intro st log
    have h1 : ParseFile fp.1 = .ok fp.2 := hpre fp (List.mem_cons_self _ _)
    have h2 := ih (fun q hq => hpre q (List.mem_cons_of_mem _ hq))
      (analyseFile sourceMap st fp.1 fp.2) (log ++ [fp.1])
    have e : log ++ (fp :: fs).map Prod.fst ++ [f] =
        log ++ [fp.1] ++ fs.map Prod.fst ++ [f] := by simp
    rw [e, ← h2]
    simp only [List.map_cons, List.cons_append, analyseFiles, h1]
    rfl

/-- The result of `run` once the options are well-formed, the files are filtered and
parsed, the sink is created and the import list is finalized. -/
theorem run_eq_of_finalized (w : World) (fl : Flags) (importMap : GoMap Import)
    (sourceList : List String) (sourceMap : GoMap String) (files : List (String × File))
    (imports : List (Option Import))
    (hI : processImports [] fl.imports = .ok importMap)
    (hS : processSources [] [] fl.sources = .ok (sourceList, sourceMap))
    (hF : w.filterFiles sourceList = .ok (files.map Prod.fst))
    (hP : ∀ fp ∈ files, w.ParseFile fp.1 = .ok fp.2)
    (hC : fl.output ≠ "" → w.Create fl.output = none)
    (hM : finalizeImports importMap
      (w.rangeOrder (analyseParsed sourceMap (initialState fl) files).pkgs) = some imports) :
    run w fl =
      if imports.any Option.isNone then
        ⟨.error (.templateExecute "nil pointer evaluating *main.Import.Name"),
          if fl.output ≠ "" then some fl.output else none, files.map Prod.fst,
          some { (analyseParsed sourceMap (initialState fl) files).cases with
            Imports := imports }⟩
      else
        match w.Write { (analyseParsed sourceMap (initialState fl) files).cases with
            Imports := imports } with
        | some msg =>
          ⟨.error (.templateExecute msg), if fl.output ≠ "" then some fl.output else none,
            files.map Prod.fst,
            some { (analyseParsed sourceMap (initialState fl) files).cases with
              Imports := imports }⟩
        | none =>
          ⟨.ok, if fl.output ≠ "" then some fl.output else none, files.map Prod.fst,
            some { (analyseParsed sourceMap (initialState fl) files).cases with
              Imports := imports }⟩ := by
  have hC1 : (if fl.output ≠ "" then w.Create fl.output else none) = none := by
    by_cases ho : fl.output ≠ ""
    · rw [if_pos ho]; exact hC ho
    · rw [if_neg ho]
  have hA := analyseFiles_of_parsed w.ParseFile sourceMap files hP (initialState fl) []
  rw [List.nil_append] at hA
  unfold run
  simp only [hI, hS, hF, hC1, hA, hM]

/-- The result of `run` when the comparison of the sort hits a missing entry. -/
theorem run_eq_of_panic (w : World) (fl : Flags) (importMap : GoMap Import)
    (sourceList : List String) (sourceMap : GoMap String) (files : List (String × File))
    (hI : processImports [] fl.imports = .ok importMap)
    (hS : processSources [] [] fl.sources = .ok (sourceList, sourceMap))
    (hF : w.filterFiles sourceList = .ok (files.map Prod.fst))
    (hP : ∀ fp ∈ files, w.ParseFile fp.1 = .ok fp.2)
    (hC : fl.output ≠ "" → w.Create fl.output = none)
    (hM : finalizeImports importMap
      (w.rangeOrder (analyseParsed sourceMap (initialState fl) files).pkgs) = none) :
    run w fl =
      ⟨.panicked, if fl.output ≠ "" then some fl.output else none, files.map Prod.fst, none⟩ := by
  have hC1 : (if fl.output ≠ "" then w.Create fl.output else none) = none := by
    by_cases ho : fl.output ≠ ""
    · rw [if_pos ho]; exact hC ho
    · rw [if_neg ho]
  have hA := analyseFiles_of_parsed w.ParseFile sourceMap files hP (initialState fl) []
  rw [List.nil_append] at hA
  unfold run
  simp only [hI, hS, hF, hC1, hA, hM]

/-- The result of `run` when a file fails to parse. -/
theorem run_eq_of_parse_error (w : World) (fl : Flags) (importMap : GoMap Import)
    (sourceList : List String) (sourceMap : GoMap String) (pre : List (String × File))
    (f msg : String) (post : List String)
    (hI : processImports [] fl.imports = .ok importMap)
    (hS : processSources [] [] fl.sources = .ok (sourceList, sourceMap))
    (hF : w.filterFiles sourceList = .ok (pre.map Prod.fst ++ f :: post))
    (hpre : ∀ fp ∈ pre, w.ParseFile fp.1 = .ok fp.2) (hf : w.ParseFile f = .error msg)
    (hC : fl.output ≠ "" → w.Create fl.output = none) :
    run w fl =
      ⟨.error (.parseFile f msg), if fl.output ≠ "" then some fl.output else none,
        pre.map Prod.fst ++ [f], none⟩ := by
  have hC1 : (if fl.output ≠ "" then w.Create fl.output else none) = none := by
    by_cases ho : fl.output ≠ ""
    · rw [if_pos ho]; exact hC ho
    · rw [if_neg ho]
  have hA := analyseFiles_error w.ParseFile sourceMap pre f msg post hpre hf (initialState fl) []
  rw [List.nil_append] at hA
  unfold run
  simp only [hI, hS, hF, hC1, hA]

/-- When every visited key has an entry in the import map, the finalized list has no
missing entry and its names are a rearrangement of the visited keys. -/
theorem finalizeImports_present (importMap : GoMap Import) (order : List String)
    (hinv : ∀ k v, importMap.get k = some v → v.Name = k)
    (hs : ∀ a ∈ order, (importMap.get a).isSome = true) :
    ∃ l : List Import,
      finalizeImports importMap order = some (l.map some) ∧
        (l.map Import.Name).Perm order := by
  obtain ⟨imports, hM⟩ := finalizeImports_returns importMap order hs
  have hp := finalizeImports_perm importMap order imports hM
  have hall : ∀ e ∈ imports, ∃ imp : Import, e = some imp := by
    intro e he
    have h1 := hp.subset he
    rw [List.mem_map] at h1
    obtain ⟨a, ha, hget⟩ := h1
    obtain ⟨imp, himp⟩ := Option.isSome_iff_exists.mp (hs a ha)
    exact ⟨imp, by rw [← hget, himp]⟩
  have hl : ∃ l : List Import, imports = l.map some := by
    clear hp hM
    induction imports with
    | nil => exact ⟨[], rfl⟩
    | cons e rest ih =>
      obtain ⟨l, hl⟩ := ih (fun x hx => hall x (List.mem_cons_of_mem _ hx))
      obtain ⟨imp, himp⟩ := hall e (List.mem_cons_self _ _)
      exact ⟨imp :: l, by simp [himp, hl]⟩
  obtain ⟨l, hl⟩ := hl
  refine ⟨l, by rw [hM, hl], ?_⟩
  rw [hl] at hp
  have h2 : ((l.map some).map (fun e : Option Import => (e.map Import.Name).getD "")).Perm
      ((order.map importMap.get).map (fun e : Option Import => (e.map Import.Name).getD "")) :=
    hp.map _
  have e1 : (l.map some).map (fun e : Option Import => (e.map Import.Name).getD "") =
      l.map Import.Name := by
    simp [List.map_map, Function.comp_def]
  have e2 : (order.map importMap.get).map
      (fun e : Option Import => (e.map Import.Name).getD "") = order := by
    rw [List.map_map]
    conv_rhs => rw [← List.map_id order]
    apply List.map_congr_left
    intro a ha
    obtain ⟨imp, himp⟩ := Option.isSome_iff_exists.mp (hs a ha)
    simp [himp, hinv a imp himp]
  rw [e1, e2] at h2
  exact h2

end TestMain

/-! ## The entry point, parse failures and unchecked references -/

namespace TestMain

/-- When the options are well-formed, the files parse, the sink can be created and
written, and every used package reference has an entry in the import map, `run` succeeds,
with no missing entry in the import list. -/
theorem run_ok_of_supplied (w : World) (fl : Flags) (importMap : GoMap Import)
    (sourceList : List String) (sourceMap : GoMap String) (files : List (String × File))
    (hperm : ∀ ks, (w.rangeOrder ks).Perm ks)
    (hI : processImports [] fl.imports = .ok importMap)
    (hS : processSources [] [] fl.sources = .ok (sourceList, sourceMap))
    (hF : w.filterFiles sourceList = .ok (files.map Prod.fst))
    (hP : ∀ fp ∈ files, w.ParseFile fp.1 = .ok fp.2)
    (hC : fl.output ≠ "" → w.Create fl.output = none)
    (hW : ∀ c, w.Write c = none)
    (hall : ∀ a ∈ (analyseParsed sourceMap (initialState fl) files).pkgs,
      (importMap.get a).isSome = true) :
    ∃ l : List Import,
      run w fl =
          ⟨.ok, if fl.output ≠ "" then some fl.output else none, files.map Prod.fst,
            some { (analyseParsed sourceMap (initialState fl) files).cases with
              Imports := l.map some }⟩
        ∧ (l.map Import.Name).Perm (analyseParsed sourceMap (initialState fl) files).pkgs := by
  have hinv : ∀ k v, importMap.get k = some v → v.Name = k :=
    processImports_names fl.imports [] importMap (by intro k v hk; simp [GoMap.get] at hk) hI
  have hs : ∀ a ∈ w.rangeOrder (analyseParsed sourceMap (initialState fl) files).pkgs,
      (importMap.get a).isSome = true :=
    fun a ha => hall a ((hperm _).mem_iff.mp ha)
  obtain ⟨l, hM, hl⟩ := finalizeImports_present importMap _ hinv hs
  refine ⟨l, ?_, hl.trans (hperm _)⟩
  have hany : (l.map some).any Option.isNone = false := by
    rw [List.any_eq_false]
    intro e he
    rw [List.mem_map] at he
    obtain ⟨x, _, hx⟩ := he
    rw [← hx]
    simp
  rw [run_eq_of_finalized w fl importMap sourceList sourceMap files (l.map some) hI hS hF hP
    hC hM, hany, hW]
  simp

/-- C12: when several analysed files declare a top-level `TestMain`, the loop over the
files completes, and the registered entry point is the `TestMain` of the last such file in
processing order; whenever `run` executes the template it does so with that entry point,
and `run` succeeds when nothing else fails. -/
theorem last_testMain_wins (w : World) (fl : Flags) (importMap : GoMap Import)
    (sourceList : List String) (sourceMap : GoMap String)
    (fs1 fs2 : List (String × File)) (fp : String × File)
    (hperm : ∀ ks, (w.rangeOrder ks).Perm ks)
    (hI : processImports [] fl.imports = .ok importMap)
    (hS : processSources [] [] fl.sources = .ok (sourceList, sourceMap))
    (hF : w.filterFiles sourceList = .ok ((fs1 ++ fp :: fs2).map Prod.fst))
    (hP : ∀ q ∈ fs1 ++ fp :: fs2, w.ParseFile q.1 = .ok q.2)
    (hmain : fp.2.Decls.any declIsTestMain = true)
    (hlast : ∀ q ∈ fs2, q.2.Decls.any declIsTestMain = false) :
    (∃ st : State,
        analyseFiles w.ParseFile sourceMap (initialState fl) []
            ((fs1 ++ fp :: fs2).map Prod.fst) = (.ok st, (fs1 ++ fp :: fs2).map Prod.fst)
          ∧ st.cases.TestMain = effectivePkg sourceMap fp.1 fp.2 ++ ".TestMain")
      ∧ (∀ cases, (run w fl).executed = some cases →
          cases.TestMain = effectivePkg sourceMap fp.1 fp.2 ++ ".TestMain")
      ∧ ((fl.output ≠ "" → w.Create fl.output = none) → (∀ c, w.Write c = none) →
          (∀ a ∈ (analyseParsed sourceMap (initialState fl) (fs1 ++ fp :: fs2)).pkgs,
            (importMap.get a).isSome = true) →
          (run w fl).status = .ok
            ∧ ∃ cases, (run w fl).executed = some cases
              ∧ cases.TestMain = effectivePkg sourceMap fp.1 fp.2 ++ ".TestMain") := by
  have hT := analyseParsed_testMain_last sourceMap (initialState fl) fs1 fs2 fp hmain hlast
  refine ⟨?_, ?_, ?_⟩
  · have hA := analyseFiles_of_parsed w.ParseFile sourceMap (fs1 ++ fp :: fs2) hP
      (initialState fl) []
    rw [List.nil_append] at hA
    exact ⟨_, hA, hT⟩
  · intro cases h
    obtain ⟨imports, _, hc⟩ :=
      run_executed_parsed w fl importMap sourceList sourceMap (fs1 ++ fp :: fs2) cases hI hS hF
        hP h
    rw [hc]
    exact hT
  · intro hC hW hall
    obtain ⟨l, hrun, _⟩ :=
      run_ok_of_supplied w fl importMap sourceList sourceMap (fs1 ++ fp :: fs2) hperm hI hS hF
        hP hC hW hall
    rw [hrun]
    exact ⟨rfl, _, rfl, hT⟩

theorem last_testMain_wins_witness :
    (∃ st : State,
        analyseFiles mainWorld.ParseFile mainSourceMap (initialState mainFlags) []
            (([("a_test.go", mainFileA)] ++ ("b_test.go", mainFileB) :: []).map Prod.fst) =
            (.ok st, ([("a_test.go", mainFileA)] ++ ("b_test.go", mainFileB) :: []).map Prod.fst)
          ∧ st.cases.TestMain =
            effectivePkg mainSourceMap ("b_test.go", mainFileB).1 ("b_test.go", mainFileB).2 ++
              ".TestMain")
      ∧ (∀ cases, (run mainWorld mainFlags).executed = some cases →
          cases.TestMain =
            effectivePkg mainSourceMap ("b_test.go", mainFileB).1 ("b_test.go", mainFileB).2 ++
              ".TestMain")
      ∧ (run mainWorld mainFlags).status = .ok
      ∧ ∃ cases, (run mainWorld mainFlags).executed = some cases
        ∧ cases.TestMain =
          effectivePkg mainSourceMap ("b_test.go", mainFileB).1 ("b_test.go", mainFileB).2 ++
            ".TestMain" :=
  have h := last_testMain_wins mainWorld mainFlags scenarioImportMap
    ["a_test.go", "b_test.go"] mainSourceMap [("a_test.go", mainFileA)] []
    ("b_test.go", mainFileB) (fun ks => List.reverse_perm ks) rfl rfl rfl
    (by
      intro q h
      simp only [List.cons_append, List.nil_append, List.mem_cons, List.not_mem_nil,
        or_false] at h
      rcases h with h | h <;> subst h <;> rfl)
    (by decide) (by intro q h; simp at h)
  ⟨h.1, h.2.1, h.2.2 (fun _ => rfl) (fun _ => rfl) (by decide)⟩

/-- C18 as stated fails: with the output file `main.go` requested and `broken.go` failing
to parse, `run` returns the parse error for `broken.go` after `os.Create` has been called
for `main.go` and has succeeded: the sink has been created before the first file is
parsed. -/
theorem sink_created_before_parse_failure :
    brokenWorld.Create "main.go" = none
      ∧ run brokenWorld brokenFlags =
          ⟨.error (.parseFile "broken.go" "expected declaration"), some "main.go",
            ["lib.go", "broken.go"], none⟩ := by
  decide

/-- C18, amended: if a source file fails to parse (the options being well-formed and the
sink, if one is requested, created), `run` returns an error naming that file and the
cause; the parser has been handed that file and the files before it and no later file;
the template is not executed, so nothing is written to the sink; and `os.Create` has been
called for the output path exactly when one is given, before any file was parsed. -/
theorem parse_failure_aborts_run (w : World) (fl : Flags) (importMap : GoMap Import)
    (sourceList : List String) (sourceMap : GoMap String) (pre : List (String × File))
    (f msg : String) (post : List String)
    (hI : processImports [] fl.imports = .ok importMap)
    (hS : processSources [] [] fl.sources = .ok (sourceList, sourceMap))
    (hF : w.filterFiles sourceList = .ok (pre.map Prod.fst ++ f :: post))
    (hpre : ∀ fp ∈ pre, w.ParseFile fp.1 = .ok fp.2) (hf : w.ParseFile f = .error msg)
    (hC : fl.output ≠ "" → w.Create fl.output = none) :
    (run w fl).status = .error (.parseFile f msg)
      ∧ (run w fl).parsed = pre.map Prod.fst ++ [f]
      ∧ (run w fl).executed = none
      ∧ (run w fl).created = (if fl.output ≠ "" then some fl.output else none) := by
  rw [run_eq_of_parse_error w fl importMap sourceList sourceMap pre f msg post hI hS hF hpre hf
    hC]
  exact ⟨rfl, rfl, rfl, rfl⟩

theorem parse_failure_aborts_run_witness :
    (run brokenWorld brokenFlags).status =
        .error (.parseFile "broken.go" "expected declaration")
      ∧ (run brokenWorld brokenFlags).parsed = [("lib.go", libFile)].map Prod.fst ++ ["broken.go"]
      ∧ (run brokenWorld brokenFlags).executed = none
      ∧ (run brokenWorld brokenFlags).created =
        (if brokenFlags.output ≠ "" then some brokenFlags.output else none) :=
  parse_failure_aborts_run brokenWorld brokenFlags scenarioImportMap
    ["lib.go", "broken.go", "lib_external_test.go"]
    [("lib_external_test.go", "x"), ("broken.go", "x"), ("lib.go", "x")]
    [("lib.go", libFile)] "broken.go" "expected declaration" ["lib_external_test.go"]
    rfl rfl rfl
    (by
      intro q h
      simp only [List.mem_cons, List.not_mem_nil, or_false] at h
      subst h
      rfl)
    rfl (fun _ => rfl)

/-- C20: `run` does not check that a used package reference was supplied. The import list
gets the entry `importMap[pkg]` for each used reference, one per reference: either the
sort panics on a missing entry, or the template is executed on a rearrangement of these
entries. The entry of a reference is present exactly when an import option supplies the
reference, and then carries it as its name. When every used reference is supplied, the
sort does not panic, no entry is missing and the names of the entries are the used
references. The used references are the package references of the files that contribute a
case or a `TestMain`. -/
theorem used_references_not_checked (w : World) (fl : Flags) (importMap : GoMap Import)
    (sourceList : List String) (sourceMap : GoMap String) (files : List (String × File))
    (hperm : ∀ ks, (w.rangeOrder ks).Perm ks)
    (hI : processImports [] fl.imports = .ok importMap)
    (hS : processSources [] [] fl.sources = .ok (sourceList, sourceMap))
    (hF : w.filterFiles sourceList = .ok (files.map Prod.fst))
    (hP : ∀ fp ∈ files, w.ParseFile fp.1 = .ok fp.2)
    (hC : fl.output ≠ "" → w.Create fl.output = none) :
    (((run w fl).status = .panicked ∧ (run w fl).executed = none)
        ∨ ∃ cases, (run w fl).executed = some cases
          ∧ cases.Imports.Perm
            ((w.rangeOrder (analyseParsed sourceMap (initialState fl) files).pkgs).map
              importMap.get)
          ∧ cases.Imports.length =
            (analyseParsed sourceMap (initialState fl) files).pkgs.length)
      ∧ (∀ a : String, ((importMap.get a).isSome = true ↔
          ∃ imp ∈ fl.imports, ∃ path, strings.Split imp '=' = [a, path]))
      ∧ (∀ (a : String) (imp : Import), importMap.get a = some imp → imp.Name = a)
      ∧ (∀ a : String, (a ∈ (analyseParsed sourceMap (initialState fl) files).pkgs ↔
          ∃ fp ∈ files, fileContributes fp.2 = true ∧ effectivePkg sourceMap fp.1 fp.2 = a))
      ∧ ((∀ a ∈ (analyseParsed sourceMap (initialState fl) files).pkgs,
            (importMap.get a).isSome = true) →
          (run w fl).status ≠ .panicked
            ∧ ∃ l : List Import,
              (run w fl).executed =
                  some { (analyseParsed sourceMap (initialState fl) files).cases with
                    Imports := l.map some }
                ∧ (l.map Import.Name).Perm
                  (analyseParsed sourceMap (initialState fl) files).pkgs) := by
  have hinv : ∀ k v, importMap.get k = some v → v.Name = k :=
    processImports_names fl.imports [] importMap (by intro k v hk; simp [GoMap.get] at hk) hI
  refine ⟨?_, ?_, hinv, ?_, ?_⟩
  · cases hM : finalizeImports importMap
        (w.rangeOrder (analyseParsed sourceMap (initialState fl) files).pkgs) with
    | none =>
      left
      rw [run_eq_of_panic w fl importMap sourceList sourceMap files hI hS hF hP hC hM]
      exact ⟨rfl, rfl⟩
    | some imports =>
      right
      have hex := run_executes w fl importMap sourceList sourceMap files imports hI hS hF hP hC
        hM
      have hp := finalizeImports_perm importMap _ imports hM
      refine ⟨_, hex, hp, ?_⟩
      have h1 := hp.length_eq
      rw [List.length_map, (hperm _).length_eq] at h1
      exact h1
  · intro a
    rw [processImports_get fl.imports [] importMap hI a]
    simp [GoMap.get]
  · intro a
    rw [analyseParsed_mem_pkgs]
    simp [initialState]
  · intro hall
    have hs : ∀ a ∈ w.rangeOrder (analyseParsed sourceMap (initialState fl) files).pkgs,
        (importMap.get a).isSome = true :=
      fun a ha => hall a ((hperm _).mem_iff.mp ha)
    obtain ⟨l, hM, hl⟩ := finalizeImports_present importMap _ hinv hs
    have hex := run_eq_of_finalized w fl importMap sourceList sourceMap files (l.map some) hI hS
      hF hP hC hM
    have hany : (l.map some).any Option.isNone = false := by
      rw [List.any_eq_false]
      intro e he
      rw [List.mem_map] at he
      obtain ⟨x, _, hx⟩ := he
      rw [← hx]
      simp
    rw [hany] at hex
    simp only [Bool.false_eq_true, if_false] at hex
    refine ⟨?_, l, ?_, hl.trans (hperm _)⟩
    · rw [hex]
      cases w.Write _ <;> simp
    · rw [hex]
      cases w.Write _ <;> rfl

theorem used_references_not_checked_witness :
    (((run scenarioWorld scenarioFlags).status = .panicked
          ∧ (run scenarioWorld scenarioFlags).executed = none)
        ∨ ∃ cases, (run scenarioWorld scenarioFlags).executed = some cases
          ∧ cases.Imports.Perm
            ((scenarioWorld.rangeOrder
                (analyseParsed scenarioSourceMap (initialState scenarioFlags)
                  scenarioFiles).pkgs).map (GoMap.get scenarioImportMap))
          ∧ cases.Imports.length =
            (analyseParsed scenarioSourceMap (initialState scenarioFlags)
              scenarioFiles).pkgs.length)
      ∧ (∀ a : String, ((GoMap.get scenarioImportMap a).isSome = true ↔
          ∃ imp ∈ scenarioFlags.imports, ∃ path, strings.Split imp '=' = [a, path]))
      ∧ (∀ (a : String) (imp : Import), GoMap.get scenarioImportMap a = some imp →
          imp.Name = a)
      ∧ (∀ a : String,
          (a ∈ (analyseParsed scenarioSourceMap (initialState scenarioFlags)
              scenarioFiles).pkgs ↔
            ∃ fp ∈ scenarioFiles, fileContributes fp.2 = true ∧
              effectivePkg scenarioSourceMap fp.1 fp.2 = a))
      ∧ (run scenarioWorld scenarioFlags).status ≠ .panicked
      ∧ ∃ l : List Import,
        (run scenarioWorld scenarioFlags).executed =
            some { (analyseParsed scenarioSourceMap (initialState scenarioFlags)
                scenarioFiles).cases with Imports := l.map some }
          ∧ (l.map Import.Name).Perm
            (analyseParsed scenarioSourceMap (initialState scenarioFlags)
              scenarioFiles).pkgs :=
  have h := used_references_not_checked scenarioWorld scenarioFlags scenarioImportMap
    ["lib.go", "lib_external_test.go"] scenarioSourceMap scenarioFiles
    (fun ks => List.reverse_perm ks) rfl rfl rfl
    (by
      intro fp h
      simp only [scenarioFiles, List.mem_cons, List.not_mem_nil, or_false] at h
      rcases h with h | h <;> subst h <;> rfl)
    (fun _ => rfl)
  ⟨h.1, h.2.1, h.2.2.1, h.2.2.2.1, h.2.2.2.2 (by decide)⟩

end TestMain

/-! ## Malformed option values -/

namespace TestMain

theorem split_two_parts (v : String) (h : (strings.Split v '=').length = 2) :
    ∃ name path, strings.Split v '=' = [name, path] := by
  cases hs : strings.Split v '=' with
  | nil => rw [hs] at h; simp at h
  | cons a t =>
    cases t with
    | nil => rw [hs] at h; simp at h
    | cons b u =>
      cases u with
      | nil => exact ⟨a, b, rfl⟩
      | cons c r => rw [hs] at h; simp at h

theorem processImports_bad_head (m : GoMap Import) (v : String) (post : List String)
    (hv : (strings.Split v '=').length ≠ 2) :
    processImports m (v :: post) = .error (.invalidImport v) := by
  unfold processImports
  split
  · rename_i name path heq
    rw [heq] at hv
    simp at hv
  · rfl

theorem processSources_bad_head (l : List String) (m : GoMap String) (v : String)
    (post : List String) (hv : (strings.Split v '=').length ≠ 2) :
    processSources l m (v :: post) = .error (.invalidSource v) := by
  unfold processSources
  split
  · rename_i name path heq
    rw [heq] at hv
    simp at hv
  · rfl

/-- The loop over the import options stops at the first value that does not split into
two parts, with the error naming it. -/
theorem processImports_error (pre : List String) (v : String) (post : List String)
    (hpre : ∀ u ∈ pre, (strings.Split u '=').length = 2)
    (hv : (strings.Split v '=').length ≠ 2) :
    ∀ m : GoMap Import, processImports m (pre ++ v :: post) = .error (.invalidImport v) := by
  induction pre with
  | nil => intro m; exact processImports_bad_head m v post hv
  | cons u us ih =>
    intro m
    obtain ⟨name, path, hs⟩ := split_two_parts u (hpre u (List.mem_cons_self _ _))
    rw [List.cons_append, processImports]
    simp only [hs]
    exact ih (fun x hx => hpre x (List.mem_cons_of_mem _ hx)) _

/-- The loop over the source options stops at the first value that does not split into
two parts, with the error naming it. -/
theorem processSources_error (pre : List String) (v : String) (post : List String)
    (hpre : ∀ u ∈ pre, (strings.Split u '=').length = 2)
    (hv : (strings.Split v '=').length ≠ 2) :
    ∀ (l : List String) (m : GoMap String),
      processSources l m (pre ++ v :: post) = .error (.invalidSource v) := by
  induction pre with
  | nil => intro l m; exact processSources_bad_head l m v post hv
  | cons u us ih =>
    intro l m
    obtain ⟨name, path, hs⟩ := split_two_parts u (hpre u (List.mem_cons_self _ _))
    rw [List.cons_append, processSources]
    simp only [hs]
    exact ih (fun x hx => hpre x (List.mem_cons_of_mem _ hx)) _ _

theorem processImports_ok (imports : List String)
    (h : ∀ u ∈ imports, (strings.Split u '=').length = 2) :
    ∀ m : GoMap Import, ∃ m1, processImports m imports = .ok m1 := by
  induction imports with
  | nil => intro m; exact ⟨m, rfl⟩
  | cons u us ih =>
    intro m
    obtain ⟨name, path, hs⟩ := split_two_parts u (h u (List.mem_cons_self _ _))
    rw [processImports]
    simp only [hs]
    exact ih (fun x hx => h x (List.mem_cons_of_mem _ hx)) _

theorem processSources_ok (sources : List String)
    (h : ∀ u ∈ sources, (strings.Split u '=').length = 2) :
    ∀ (l : List String) (m : GoMap String), ∃ r, processSources l m sources = .ok r := by
  induction sources with
  | nil => intro l m; exact ⟨(l, m), rfl⟩
  | cons u us ih =>
    intro l m
    obtain ⟨name, path, hs⟩ := split_two_parts u (h u (List.mem_cons_self _ _))
    rw [processSources]
    simp only [hs]
    exact ih (fun x hx => h x (List.mem_cons_of_mem _ hx)) _ _

/-- A list with an element that fails a test splits at the first such element. -/
theorem split_at_first_bad (P : String → Prop) [DecidablePred P] (l : List String)
    (h : ∃ v ∈ l, ¬ P v) :
    ∃ pre v post, l = pre ++ v :: post ∧ (∀ u ∈ pre, P u) ∧ ¬ P v := by
  induction l with
  | nil =>
    obtain ⟨v, hv, _⟩ := h
    simp at hv
  | cons x xs ih =>
    by_cases hx : P x
    · have h1 : ∃ v ∈ xs, ¬ P v := by
        obtain ⟨v, hv, hb⟩ := h
        rcases List.mem_cons.mp hv with e | e
        · subst e; exact absurd hx hb
        · exact ⟨v, e, hb⟩
      obtain ⟨pre, v, post, e, hp, hb⟩ := ih h1
      refine ⟨x :: pre, v, post, by rw [e]; rfl, ?_, hb⟩
      intro u hu
      rcases List.mem_cons.mp hu with e1 | e1
      · subst e1; exact hx
      · exact hp u e1
    · exact ⟨[], x, xs, rfl, by simp, hx⟩

/-- An error of the loop over the files is a parse error. -/
theorem analyseFiles_error_kind (ParseFile : String → Except String File)
    (sourceMap : GoMap String) (filenames : List String) :
    ∀ (st : State) (log : List String) (e : RunError) (parsed : List String),
      analyseFiles ParseFile sourceMap st log filenames = (.error e, parsed) →
        ∃ f msg, e = .parseFile f msg := by
  induction filenames with
  | nil => intro st log e parsed h; simp [analyseFiles] at h
  | cons f fs ih =>
    intro st log e parsed h
    unfold analyseFiles at h
    cases hp : ParseFile f with
    | error msg =>
      simp only [hp, Prod.mk.injEq, Except.error.injEq] at h
      exact ⟨f, msg, h.1.symm⟩
    | ok parse =>
      simp only [hp] at h
      exact ih _ _ _ _ h

/-- Once both option loops have succeeded, `run` does not end in an argument-shape error. -/
theorem run_no_shape_error (w : World) (fl : Flags) (importMap : GoMap Import)
    (r : List String × GoMap String)
    (hI : processImports [] fl.imports = .ok importMap)
    (hS : processSources [] [] fl.sources = .ok r) (v : String) :
    (run w fl).status ≠ .error (.invalidImport v)
      ∧ (run w fl).status ≠ .error (.invalidSource v) := by
  obtain ⟨sourceList, sourceMap⟩ := r
  unfold run
  simp only [hI, hS]
  cases hF : w.filterFiles sourceList with
  | error msg => simp
  | ok filenames =>
    cases hC : (if fl.output ≠ "" then w.Create fl.output else none) with
    | some msg => simp only [hC]; simp
    | none =>
      cases hA : analyseFiles w.ParseFile sourceMap (initialState fl) [] filenames with
      | mk res parsed =>
        cases res with
        | error e =>
          obtain ⟨f, msg, he⟩ := analyseFiles_error_kind _ _ _ _ _ _ _ hA
          simp only [hC, hA, he]
          simp
        | ok st =>
          cases hM : finalizeImports importMap (w.rangeOrder st.pkgs) with
          | none => simp only [hC, hA, hM]; simp
          | some imports =>
            simp only [hC, hA, hM]
            split
            · simp
            · split <;> simp

/-- C14: `run` ends in an argument-shape error exactly when some import or source value
does not split on `=` into two parts. The error names the first such value, an import
before any source; no file has been handed to the parser, `os.Create` has not been called
and the template has not been executed. -/
theorem malformed_option_aborts_run (w : World) (fl : Flags) :
    ((∃ v, (run w fl).status = .error (.invalidImport v)
          ∨ (run w fl).status = .error (.invalidSource v)) ↔
        ∃ v ∈ fl.imports ++ fl.sources, (strings.Split v '=').length ≠ 2)
      ∧ (∀ pre v post, fl.imports = pre ++ v :: post →
          (∀ u ∈ pre, (strings.Split u '=').length = 2) →
          (strings.Split v '=').length ≠ 2 →
          run w fl = ⟨.error (.invalidImport v), none, [], none⟩)
      ∧ (∀ pre v post, (∀ u ∈ fl.imports, (strings.Split u '=').length = 2) →
          fl.sources = pre ++ v :: post →
          (∀ u ∈ pre, (strings.Split u '=').length = 2) →
          (strings.Split v '=').length ≠ 2 →
          run w fl = ⟨.error (.invalidSource v), none, [], none⟩) := by
  have hA : ∀ pre v post, fl.imports = pre ++ v :: post →
      (∀ u ∈ pre, (strings.Split u '=').length = 2) →
      (strings.Split v '=').length ≠ 2 →
      run w fl = ⟨.error (.invalidImport v), none, [], none⟩ := by
    intro pre v post e hpre hv
    have h := processImports_error pre v post hpre hv []
    rw [← e] at h
    unfold run
    simp only [h]
  have hB : ∀ pre v post, (∀ u ∈ fl.imports, (strings.Split u '=').length = 2) →
      fl.sources = pre ++ v :: post →
      (∀ u ∈ pre, (strings.Split u '=').length = 2) →
      (strings.Split v '=').length ≠ 2 →
      run w fl = ⟨.error (.invalidSource v), none, [], none⟩ := by
    intro pre v post hgood e hpre hv
    obtain ⟨m1, hI⟩ := processImports_ok fl.imports hgood []
    have h := processSources_error pre v post hpre hv [] []
    rw [← e] at h
    unfold run
    simp only [hI, h]
  refine ⟨?_, hA, hB⟩
  constructor
  · rintro ⟨v, hv⟩
    by_contra hne
    have hgood : ∀ u ∈ fl.imports ++ fl.sources, (strings.Split u '=').length = 2 := by
      intro u hu
      by_contra hb
      exact hne ⟨u, hu, hb⟩
    obtain ⟨m1, hI⟩ :=
      processImports_ok fl.imports (fun u hu => hgood u (List.mem_append_left _ hu)) []
    obtain ⟨r, hS⟩ :=
      processSources_ok fl.sources (fun u hu => hgood u (List.mem_append_right _ hu)) [] []
    have hno := run_no_shape_error w fl m1 r hI hS v
    rcases hv with hv | hv
    · exact hno.1 hv
    · exact hno.2 hv
  · rintro ⟨v, hv, hb⟩
    by_cases hi : ∃ u ∈ fl.imports, ¬ (strings.Split u '=').length = 2
    · obtain ⟨pre, x, post, e, hp, hx⟩ :=
        split_at_first_bad (fun u => (strings.Split u '=').length = 2) fl.imports hi
      exact ⟨x, Or.inl (by rw [hA pre x post e hp hx])⟩
    · have hgood : ∀ u ∈ fl.imports, (strings.Split u '=').length = 2 := by
        intro u hu
        by_contra hb1
        exact hi ⟨u, hu, hb1⟩
      have hs : ∃ u ∈ fl.sources, ¬ (strings.Split u '=').length = 2 := by
        rcases List.mem_append.mp hv with h1 | h1
        · exact absurd (hgood v h1) hb
        · exact ⟨v, h1, hb⟩
      obtain ⟨pre, x, post, e, hp, hx⟩ :=
        split_at_first_bad (fun u => (strings.Split u '=').length = 2) fl.sources hs
      exact ⟨x, Or.inr (by rw [hB pre x post hgood e hp hx])⟩

theorem malformed_option_aborts_run_witness :
    run scenarioWorld malformedFlags = ⟨.error (.invalidImport "x"), none, [], none⟩ :=
  (malformed_option_aborts_run scenarioWorld malformedFlags).2.1 ["a=example.com/a"] "x" ["b"]
    rfl (by decide) (by decide)

end TestMain

/-! ## Build tags -/

namespace TestMain

theorem splitAux_join (sep : Char) (cs : List Char) :
    ∀ acc : List Char, ∃ hd tl,
      strings.splitAux sep acc cs = hd :: tl ∧
        hd ++ tl.flatMap (fun a => sep :: a) = acc.reverse ++ cs := by
  induction cs with
  | nil => intro acc; exact ⟨acc.reverse, [], rfl, by simp⟩
  | cons c cs ih =>
    intro acc
    by_cases h : c = sep
    · obtain ⟨hd, tl, e, hj⟩ := ih []
      refine ⟨acc.reverse, hd :: tl, ?_, ?_⟩
      · simp [strings.splitAux, h, e]
      · rw [List.flatMap_cons, List.cons_append, hj, h]
        simp
    · obtain ⟨hd, tl, e, hj⟩ := ih (c :: acc)
      refine ⟨hd, tl, ?_, ?_⟩
      · simp [strings.splitAux, h, e]
      · rw [hj]
        simp

theorem splitAux_no_sep (sep : Char) (cs : List Char) :
    ∀ acc : List Char, sep ∉ acc → ∀ p ∈ strings.splitAux sep acc cs, sep ∉ p := by
  induction cs with
  | nil =>
    intro acc hacc p hp
    simp only [strings.splitAux, List.mem_singleton] at hp
    rw [hp]
    simpa using hacc
  | cons c cs ih =>
    intro acc hacc p hp
    by_cases h : c = sep
    · simp only [strings.splitAux, h, if_true, List.mem_cons] at hp
      rcases hp with hp | hp
      · rw [hp]; simpa using hacc
      · exact ih [] (by simp) p hp
    · simp only [strings.splitAux, h, if_false] at hp
      refine ih (c :: acc) ?_ p hp
      intro hm
      rcases List.mem_cons.mp hm with e | e
      · exact h e.symm
      · exact hacc e

theorem intercalate_go_toList (sep : String) (l : List String) :
    ∀ acc : String,
      (String.intercalate.go acc sep l).toList =
        acc.toList ++ l.flatMap (fun a => sep.toList ++ a.toList) := by
  induction l with
  | nil => intro acc; simp [String.intercalate.go]
  | cons a as ih =>
    intro acc
    rw [String.intercalate.go, ih]
    simp [String.toList, String.data_append, List.append_assoc]

/-- Joining the pieces of a string with the separator gives the string back. -/
theorem join_split (s : String) (sep : Char) :
    strings.Join (strings.Split s sep) (String.singleton sep) = s := by
  obtain ⟨hd, tl, e, hj⟩ := splitAux_join sep s.toList []
  apply String.ext
  have h1 : (strings.Join (strings.Split s sep) (String.singleton sep)).toList = s.toList := by
    unfold strings.Join strings.Split
    rw [e, List.map_cons, String.intercalate, intercalate_go_toList]
    rw [List.reverse_nil, List.nil_append] at hj
    rw [← hj]
    congr 1
    rw [List.flatMap_map]
    rfl
  exact h1

/-- C19: `Set` returns no error and leaves the tag list equal to the tags it had followed
by the pieces of the option between its commas, in order, none of which contains a comma;
`String` then returns these tags joined by commas, which is the option itself when there
was no tag before. -/
theorem tagFlag_set_appends_tags (ts : List String) (opt : String) :
    (tagFlagSet ts opt).1 = none
      ∧ (tagFlagSet ts opt).2 = ts ++ strings.Split opt ','
      ∧ (∀ p ∈ strings.Split opt ',', ',' ∉ p.toList)
      ∧ tagFlagString (tagFlagSet ts opt).2 = strings.Join (ts ++ strings.Split opt ',') ","
      ∧ tagFlagString (tagFlagSet [] opt).2 = opt
      ∧ tagFlagString (tagFlagSet [] "linux,cgo").2 = "linux,cgo"
      ∧ (tagFlagSet ["race"] "linux,cgo").2 = ["race", "linux", "cgo"]
      ∧ tagFlagString (tagFlagSet ["race"] "linux,cgo").2 = "race,linux,cgo" := by
  refine ⟨rfl, rfl, ?_, rfl, ?_, by decide, by decide, by decide⟩
  · intro p hp
    unfold strings.Split at hp
    rw [List.mem_map] at hp
    obtain ⟨q, hq, e⟩ := hp
    rw [← e]
    exact splitAux_no_sep ',' opt.toList [] (by simp) q hq
  · show strings.Join ([] ++ strings.Split opt ',') "," = opt
    rw [List.nil_append]
    exact join_split opt ','

end TestMain

/-! ## Independence of the argument order -/

namespace TestMain

/-- With pairwise different aliases, the import map holds for an alias the import of the
option value that supplies it. -/
theorem processImports_get_some (imports : List String) :
    ∀ (m m1 : GoMap Import), processImports m imports = .ok m1 →
      imports.Pairwise (fun u v => optionAlias u ≠ optionAlias v) →
      ∀ (a : String) (imp : Import),
        (m1.get a = some imp ↔
          ((∃ v ∈ imports, strings.Split v '=' = [a, imp.Path] ∧ imp.Name = a)
            ∨ ((∀ v ∈ imports, optionAlias v ≠ a) ∧ m.get a = some imp))) := by
  induction imports with
  | nil =>
    intro m m1 h _ a imp
    simp only [processImports, Except.ok.injEq] at h
    subst h
    simp
  | cons u us ih =>
    intro m m1 h hd a imp
    rw [List.pairwise_cons] at hd
    unfold processImports at h
    split at h
    · rename_i name path heq
      have hu : optionAlias u = name := by simp [optionAlias, heq]
      rw [ih _ _ h hd.2 a imp, get_set]
      constructor
      · rintro (⟨v, hv, hs⟩ | ⟨hall, hg⟩)
        · exact Or.inl ⟨v, List.mem_cons_of_mem _ hv, hs⟩
        · by_cases e : a = name
          · rw [if_pos e] at hg
            have hi : imp = { Name := name, Path := path } := (Option.some.inj hg).symm
            refine Or.inl ⟨u, List.mem_cons_self _ _, ?_, ?_⟩
            · rw [heq, e, hi]
            · rw [hi, e]
          · rw [if_neg e] at hg
            refine Or.inr ⟨?_, hg⟩
            intro v hv
            rcases List.mem_cons.mp hv with e1 | e1
            · rw [e1, hu]; exact fun h1 => e h1.symm
            · exact hall v e1
      · rintro (⟨v, hv, hs, hn⟩ | ⟨hall, hg⟩)
        · rcases List.mem_cons.mp hv with e1 | e1
          · subst e1
            rw [heq] at hs
            simp only [List.cons.injEq, and_true] at hs
            right
            refine ⟨?_, ?_⟩
            · intro x hx
              have := hd.1 x hx
              rw [hu, hs.1] at this
              exact fun h1 => this h1.symm
            · rw [if_pos hs.1.symm]
              congr 1
              cases imp with
              | mk n p =>
                simp only at hs hn
                simp only [Import.mk.injEq]
                exact ⟨hs.1.trans hn.symm, hs.2⟩
          · exact Or.inl ⟨v, e1, hs, hn⟩
        · have hne : a ≠ name := by
            have := hall u (List.mem_cons_self _ _)
            rw [hu] at this
            exact fun h1 => this h1.symm
          right
          refine ⟨fun v hv => hall v (List.mem_cons_of_mem _ hv), ?_⟩
          rw [if_neg hne]
          exact hg
    · simp at h

/-- With pairwise different paths, the source map holds for a path the alias of the
option value that names it, and the source list is the list of the paths. -/
theorem processSources_get_some (sources : List String) :
    ∀ (l : List String) (m : GoMap String) (l1 : List String) (m1 : GoMap String),
      processSources l m sources = .ok (l1, m1) →
      sources.Pairwise (fun u v => optionPath u ≠ optionPath v) →
      l1 = l ++ sources.map optionPath
        ∧ ∀ (f a : String),
          (m1.get f = some a ↔
            ((∃ v ∈ sources, strings.Split v '=' = [a, f])
              ∨ ((∀ v ∈ sources, optionPath v ≠ f) ∧ m.get f = some a))) := by
  induction sources with
  | nil =>
    intro l m l1 m1 h _
    simp only [processSources, Except.ok.injEq, Prod.mk.injEq] at h
    obtain ⟨h1, h2⟩ := h
    subst h1 h2
    simp
  | cons u us ih =>
    intro l m l1 m1 h hd
    rw [List.pairwise_cons] at hd
    unfold processSources at h
    split at h
    · rename_i name path heq
      have hu : optionPath u = path := by simp [optionPath, heq]
      obtain ⟨hl, hg⟩ := ih _ _ _ _ h hd.2
      refine ⟨by rw [hl, List.map_cons, hu]; simp, ?_⟩
      intro f a
      rw [hg f a, get_set]
      constructor
      · rintro (⟨v, hv, hs⟩ | ⟨hall, hg1⟩)
        · exact Or.inl ⟨v, List.mem_cons_of_mem _ hv, hs⟩
        · by_cases e : f = path
          · rw [if_pos e] at hg1
            have hi : a = name := (Option.some.inj hg1).symm
            exact Or.inl ⟨u, List.mem_cons_self _ _, by rw [heq, e, hi]⟩
          · rw [if_neg e] at hg1
            refine Or.inr ⟨?_, hg1⟩
            intro v hv
            rcases List.mem_cons.mp hv with e1 | e1
            · rw [e1, hu]; exact fun h1 => e h1.symm
            · exact hall v e1
      · rintro (⟨v, hv, hs⟩ | ⟨hall, hg1⟩)
        · rcases List.mem_cons.mp hv with e1 | e1
          · subst e1
            rw [heq] at hs
            simp only [List.cons.injEq, and_true] at hs
            right
            refine ⟨?_, ?_⟩
            · intro x hx
              have := hd.1 x hx
              rw [hu, hs.2] at this
              exact fun h1 => this h1.symm
            · rw [if_pos hs.2.symm, hs.1]
          · exact Or.inl ⟨v, e1, hs⟩
        · have hne : f ≠ path := by
            have := hall u (List.mem_cons_self _ _)
            rw [hu] at this
            exact fun h1 => this h1.symm
          right
          refine ⟨fun v hv => hall v (List.mem_cons_of_mem _ hv), ?_⟩
          rw [if_neg hne]
          exact hg1
    · simp at h

theorem effectivePkg_congr (sm1 sm2 : GoMap String) (f : String) (parse : File)
    (h : sm1.get f = sm2.get f) : effectivePkg sm1 f parse = effectivePkg sm2 f parse := by
  simp [effectivePkg, h]

/-- Two strictly ascending import lists that are rearrangements of one another are
equal. -/
theorem ascending_perm_eq (l1 l2 : List (Option Import)) (hp : l1.Perm l2)
    (h1 : l1.Pairwise aliasBefore) (h2 : l2.Pairwise aliasBefore) : l1 = l2 := by
  haveI : IsAntisymm (Option Import) aliasBefore :=
    ⟨fun a b hab hba => by
      cases a with
      | none => exact absurd hab (by simp [aliasBefore])
      | some x =>
        cases b with
        | none => exact absurd hab (by simp [aliasBefore])
        | some y =>
          simp only [aliasBefore] at hab hba
          exact absurd hba (lt_asymm hab)⟩
  exact List.eq_of_perm_of_sorted hp h1 h2

end TestMain

namespace TestMain

/-- C16 as stated fails: the two runs have the same import options, with the different
aliases `x` and `y`, and source options that are rearrangements of one another, naming
`lib.go` under both aliases; the later source option decides the alias of the file, so the
first run finalizes the single import `y` and the second the single import `x`. -/
theorem imports_depend_on_source_order :
    twiceFlags.imports = twiceFlagsSwapped.imports
      ∧ twiceFlags.imports.map optionAlias = ["x", "y"]
      ∧ twiceFlags.sources.Perm twiceFlagsSwapped.sources
      ∧ (run scenarioWorld twiceFlags).executed.map Cases.Imports =
          some [some { Name := "y", Path := "example.com/y" }]
      ∧ (run scenarioWorld twiceFlagsSwapped).executed.map Cases.Imports =
          some [some { Name := "x", Path := "example.com/x" }] := by
  refine ⟨rfl, by decide, ?_, by decide, by decide⟩
  exact List.Perm.swap _ _ _

/-- C16, amended: two runs over the same files whose import options, with pairwise
different aliases, and source options, with pairwise different paths, are rearrangements
of one another, and whose file filter keeps the same files, finalize the same import list,
entry by entry, whatever the order in which each run visits the keys of its used-set. -/
theorem imports_independent_of_argument_order (w1 w2 : World) (fl1 fl2 : Flags)
    (cases1 cases2 : Cases)
    (hr1 : ∀ ks, (w1.rangeOrder ks).Perm ks) (hr2 : ∀ ks, (w2.rangeOrder ks).Perm ks)
    (hparse : w2.ParseFile = w1.ParseFile)
    (hfilter : ∀ l1 l2 r1 r2, l1.Perm l2 → w1.filterFiles l1 = .ok r1 →
      w2.filterFiles l2 = .ok r2 → r1.Perm r2)
    (himp : fl1.imports.Perm fl2.imports) (hsrc : fl1.sources.Perm fl2.sources)
    (hdi : fl1.imports.Pairwise (fun u v => optionAlias u ≠ optionAlias v))
    (hds : fl1.sources.Pairwise (fun u v => optionPath u ≠ optionPath v))
    (h1 : (run w1 fl1).executed = some cases1) (h2 : (run w2 fl2).executed = some cases2) :
    cases1.Imports = cases2.Imports := by
  obtain ⟨im1, sl1, sm1, fns1, st1, parsed1, imports1, hI1, hS1, hF1, hA1, hM1, hc1⟩ :=
    run_executed w1 fl1 cases1 h1
  obtain ⟨im2, sl2, sm2, fns2, st2, parsed2, imports2, hI2, hS2, hF2, hA2, hM2, hc2⟩ :=
    run_executed w2 fl2 cases2 h2
  have hdi2 : fl2.imports.Pairwise (fun u v => optionAlias u ≠ optionAlias v) :=
    (himp.pairwise_iff (fun {x y} (h : optionAlias x ≠ optionAlias y) => h.symm)).mp hdi
  have hds2 : fl2.sources.Pairwise (fun u v => optionPath u ≠ optionPath v) :=
    (hsrc.pairwise_iff (fun {x y} (h : optionPath x ≠ optionPath y) => h.symm)).mp hds
  -- the two import maps agree
  have him : ∀ a, im1.get a = im2.get a := by
    intro a
    apply Option.ext
    intro imp
    simp only [Option.mem_def]
    rw [processImports_get_some fl1.imports [] im1 hI1 hdi a imp,
      processImports_get_some fl2.imports [] im2 hI2 hdi2 a imp]
    simp only [GoMap.get, List.lookup_nil, and_false, or_false, himp.mem_iff, reduceCtorEq]
  -- the two source maps agree, and the source lists are rearrangements
  obtain ⟨hsl1, hsm1⟩ := processSources_get_some fl1.sources [] [] sl1 sm1 hS1 hds
  obtain ⟨hsl2, hsm2⟩ := processSources_get_some fl2.sources [] [] sl2 sm2 hS2 hds2
  have hsm : ∀ f, sm1.get f = sm2.get f := by
    intro f
    apply Option.ext
    intro a
    simp only [Option.mem_def]
    rw [hsm1 f a, hsm2 f a]
    simp only [GoMap.get, List.lookup_nil, and_false, or_false, hsrc.mem_iff, reduceCtorEq]
  have hsl : sl1.Perm sl2 := by
    rw [hsl1, hsl2, List.nil_append, List.nil_append]
    exact hsrc.map _
  have hfn : fns1.Perm fns2 := hfilter sl1 sl2 fns1 fns2 hsl hF1 hF2
  -- the two used-sets have the same keys
  obtain ⟨files1, hf1, hp1, hst1, _⟩ := analyseFiles_ok w1.ParseFile sm1 fns1 _ _ _ _ hA1
  obtain ⟨files2, hf2, hp2, hst2, _⟩ := analyseFiles_ok w2.ParseFile sm2 fns2 _ _ _ _ hA2
  rw [hparse] at hp2
  have hsub : ∀ (fa fb : List (String × File)) (na nb : List String) (sa sb : GoMap String),
      fa.map Prod.fst = na → fb.map Prod.fst = nb → na.Perm nb →
      (∀ fp ∈ fa, w1.ParseFile fp.1 = .ok fp.2) → (∀ fp ∈ fb, w1.ParseFile fp.1 = .ok fp.2) →
      (∀ f, sa.get f = sb.get f) → ∀ a : String,
      (∃ fp ∈ fa, fileContributes fp.2 = true ∧ effectivePkg sa fp.1 fp.2 = a) →
      (∃ fp ∈ fb, fileContributes fp.2 = true ∧ effectivePkg sb fp.1 fp.2 = a) := by
    intro fa fb na nb sa sb hfa hfb hperm hpa hpb hget a ⟨fp, hfp, hc, he⟩
    have hmem : fp.1 ∈ nb := by
      apply hperm.subset
      rw [← hfa]
      exact List.mem_map_of_mem _ hfp
    rw [← hfb, List.mem_map] at hmem
    obtain ⟨fq, hfq, hname⟩ := hmem
    have hsame : fq.2 = fp.2 := by
      have e1 := hpb fq hfq
      have e2 := hpa fp hfp
      rw [hname, e2] at e1
      exact (Except.ok.inj e1).symm
    refine ⟨fq, hfq, by rw [hsame]; exact hc, ?_⟩
    rw [hsame, hname, ← effectivePkg_congr sa sb fp.1 fp.2 (hget fp.1)]
    exact he
  have hmem : ∀ a, a ∈ st1.pkgs ↔ a ∈ st2.pkgs := by
    intro a
    rw [hst1, hst2, analyseParsed_mem_pkgs, analyseParsed_mem_pkgs]
    simp only [initialState, List.not_mem_nil, false_or]
    constructor
    · exact hsub files1 files2 fns1 fns2 sm1 sm2 hf1 hf2 hfn hp1 hp2 hsm a
    · exact hsub files2 files1 fns2 fns1 sm2 sm1 hf2 hf1 hfn.symm hp2 hp1
        (fun f => (hsm f).symm) a
  have hnd1 : st1.pkgs.Nodup := by
    rw [hst1]; exact analyseParsed_nodup_pkgs sm1 files1 (initialState fl1) List.nodup_nil
  have hnd2 : st2.pkgs.Nodup := by
    rw [hst2]; exact analyseParsed_nodup_pkgs sm2 files2 (initialState fl2) List.nodup_nil
  have hpk : st1.pkgs.Perm st2.pkgs := (List.perm_ext_iff_of_nodup hnd1 hnd2).mpr hmem
  have hord : (w1.rangeOrder st1.pkgs).Perm (w2.rangeOrder st2.pkgs) :=
    ((hr1 _).trans hpk).trans (hr2 _).symm
  -- the two lists are ascending rearrangements of the same entries
  have hinv1 : ∀ k v, im1.get k = some v → v.Name = k :=
    processImports_names fl1.imports [] im1 (by intro k v hk; simp [GoMap.get] at hk) hI1
  have hinv2 : ∀ k v, im2.get k = some v → v.Name = k :=
    processImports_names fl2.imports [] im2 (by intro k v hk; simp [GoMap.get] at hk) hI2
  have ha1 := finalizeImports_ascending im1 _ imports1 hinv1 ((hr1 _).nodup_iff.mpr hnd1) hM1
  have ha2 := finalizeImports_ascending im2 _ imports2 hinv2 ((hr2 _).nodup_iff.mpr hnd2) hM2
  have hq1 := finalizeImports_perm im1 _ imports1 hM1
  have hq2 := finalizeImports_perm im2 _ imports2 hM2
  have hent : ((w1.rangeOrder st1.pkgs).map im1.get).Perm
      ((w2.rangeOrder st2.pkgs).map im2.get) := by
    have e : (w2.rangeOrder st2.pkgs).map im2.get = (w2.rangeOrder st2.pkgs).map im1.get :=
      List.map_congr_left (fun a _ => (him a).symm)
    rw [e]
    exact hord.map _
  rw [hc1, hc2]
  exact ascending_perm_eq imports1 imports2 ((hq1.trans hent).trans hq2.symm) ha1 ha2

theorem imports_independent_of_argument_order_witness :
    (run scenarioWorld scenarioFlags).executed = some scenarioCases
      ∧ (run scenarioWorldInOrder scenarioFlagsSwapped).executed = some scenarioCasesSwapped
      ∧ scenarioCases.Imports = scenarioCasesSwapped.Imports :=
  ⟨by decide, by decide,
    imports_independent_of_argument_order scenarioWorld scenarioWorldInOrder scenarioFlags
      scenarioFlagsSwapped scenarioCases scenarioCasesSwapped
      (fun ks => List.reverse_perm ks) (fun ks => List.Perm.refl ks) rfl
      (by
        intro l1 l2 r1 r2 hp e1 e2
        have e3 : l1 = r1 := Except.ok.inj e1
        have e4 : l2 = r2 := Except.ok.inj e2
        rw [← e3, ← e4]
        exact hp)
      (List.Perm.swap _ _ _) (List.Perm.swap _ _ _) (by decide) (by decide) (by decide)
      (by decide)⟩

end TestMain

/-! ## The string literal of an expected output -/

namespace TestMain

open strconv

theorem unhex_lowerhex (d : Nat) (h : d < 16) : unhex (lowerhex d) = some d := by
  interval_cases d <;> decide

theorem hexValue_hexDigits (n : Nat) :
    ∀ v r : Nat, hexValue v (hexDigits n r) = some (v * 16 ^ n + r % 16 ^ n) := by
  induction n with
  | zero => intro v r; simp [hexDigits, hexValue, Nat.mod_one]
  | succ n ih =>
    intro v r
    rw [hexDigits, hexValue, unhex_lowerhex _ (Nat.mod_lt _ (by decide))]
    simp only
    rw [ih, Nat.mod_pow_succ]
    congr 1
    ring

theorem char_ofNat_toNat (c : Char) : Char.ofNat c.toNat = c := Char.ofNat_toNat c

theorem runeOf_toNat (c : Char) : runeOf c.toNat = some c := by
  have h : c.toNat.isValidChar := c.valid
  unfold runeOf
  rw [if_pos h, char_ofNat_toNat]

end TestMain

namespace TestMain

open strconv

theorem unquoteChar_control (c : Char) (k : Nat) (e : Char) (rest : List Char)
    (h : c.toNat = k)
    (hu : UnquoteChar (backslash :: e :: rest) = some (Char.ofNat k, rest)) :
    UnquoteChar ([backslash, e] ++ rest) = some (c, rest) := by
  have hc : c = Char.ofNat k := by rw [← h, char_ofNat_toNat]
  rw [hc]
  exact hu

theorem unquoteChar_hex2 (c : Char) (rest : List Char) (h : c.toNat < 128) :
    UnquoteChar ((backslash :: 'x' :: hexDigits 2 c.toNat) ++ rest) = some (c, rest) := by
  have hv := hexValue_hexDigits 2 0 c.toNat
  have hn : 0 * 16 ^ 2 + c.toNat % 16 ^ 2 = c.toNat := by
    norm_num
    omega
  rw [hn] at hv
  show ((hexValue 0 (hexDigits 2 c.toNat)).bind byteRune).map (fun r => (r, rest)) =
    some (c, rest)
  rw [hv]
  simp [byteRune, h, char_ofNat_toNat]

theorem unquoteChar_hex4 (c : Char) (rest : List Char) :
    UnquoteChar ((backslash :: 'u' :: hexDigits 4 c.toNat) ++ rest) =
      (runeOf (c.toNat % 65536)).map (fun r => (r, rest)) := by
  have hv := hexValue_hexDigits 4 0 c.toNat
  have hn : 0 * 16 ^ 4 + c.toNat % 16 ^ 4 = c.toNat % 65536 := by
    norm_num
  rw [hn] at hv
  show ((hexValue 0 (hexDigits 4 c.toNat)).bind runeOf).map (fun r => (r, rest)) = _
  rw [hv]
  rfl

theorem unquoteChar_hex8 (c : Char) (rest : List Char) :
    UnquoteChar ((backslash :: 'U' :: hexDigits 8 c.toNat) ++ rest) = some (c, rest) := by
  have hv := hexValue_hexDigits 8 0 c.toNat
  have hlt : c.toNat < 1114112 := by
    have hvalid : c.toNat.isValidChar := c.valid
    rcases hvalid with h | h
    · omega
    · exact h.2
  have hn : 0 * 16 ^ 8 + c.toNat % 16 ^ 8 = c.toNat := by
    norm_num
    omega
  rw [hn] at hv
  show ((hexValue 0 (hexDigits 8 c.toNat)).bind runeOf).map (fun r => (r, rest)) =
    some (c, rest)
  rw [hv]
  simp [runeOf_toNat]

/-- `UnquoteChar` reads the text that `appendEscapedRune` writes for a character back as
that character, and leaves the text after it. -/
theorem unquoteChar_escaped (IsPrint : Char → Bool)
    (hp : ∀ c, IsPrint c = true → c ≠ linefeed ∧ c.toNat ≠ 0 ∧ c.toNat ≠ 65279)
    (c : Char) (rest : List Char) :
    UnquoteChar (appendEscapedRune IsPrint c ++ rest) = some (c, rest) := by
  unfold appendEscapedRune
  by_cases h1 : c = dquote ∨ c = backslash
  · rw [if_pos h1]
    rcases h1 with h | h <;> subst h <;> rfl
  · rw [if_neg h1]
    have hq : c ≠ dquote := fun h => h1 (Or.inl h)
    have hb : c ≠ backslash := fun h => h1 (Or.inr h)
    by_cases h2 : IsPrint c = true
    · rw [if_pos h2]
      obtain ⟨p1, p2, p3⟩ := hp c h2
      show UnquoteChar (c :: rest) = some (c, rest)
      simp only [UnquoteChar, hb, if_false, hq, p1, p2, p3, or_self]
    · rw [if_neg h2]
      by_cases h3 : c.toNat = 7
      · rw [if_pos h3]; exact unquoteChar_control c 7 'a' rest h3 rfl
      rw [if_neg h3]
      by_cases h4 : c.toNat = 8
      · rw [if_pos h4]; exact unquoteChar_control c 8 'b' rest h4 rfl
      rw [if_neg h4]
      by_cases h5 : c.toNat = 12
      · rw [if_pos h5]; exact unquoteChar_control c 12 'f' rest h5 rfl
      rw [if_neg h5]
      by_cases h6 : c.toNat = 10
      · rw [if_pos h6]; exact unquoteChar_control c 10 'n' rest h6 rfl
      rw [if_neg h6]
      by_cases h7 : c.toNat = 13
      · rw [if_pos h7]; exact unquoteChar_control c 13 'r' rest h7 rfl
      rw [if_neg h7]
      by_cases h8 : c.toNat = 9
      · rw [if_pos h8]; exact unquoteChar_control c 9 't' rest h8 rfl
      rw [if_neg h8]
      by_cases h9 : c.toNat = 11
      · rw [if_pos h9]; exact unquoteChar_control c 11 'v' rest h9 rfl
      rw [if_neg h9]
      by_cases h10 : c.toNat < 32 ∨ c.toNat = 127
      · rw [if_pos h10]
        exact unquoteChar_hex2 c rest (by omega)
      rw [if_neg h10]
      by_cases h11 : c.toNat < 65536
      · rw [if_pos h11, unquoteChar_hex4 c rest, Nat.mod_eq_of_lt h11, runeOf_toNat]
        rfl
      rw [if_neg h11]
      exact unquoteChar_hex8 c rest

theorem unquoteChar_nil : UnquoteChar [] = none := rfl

/-- With fuel for every character of the text, the loop reads the escaped text of a list
of characters back as that list. -/
theorem unquoteLoop_escaped (IsPrint : Char → Bool)
    (hp : ∀ c, IsPrint c = true → c ≠ linefeed ∧ c.toNat ≠ 0 ∧ c.toNat ≠ 65279)
    (s : List Char) :
    ∀ fuel : Nat, (s.flatMap (appendEscapedRune IsPrint)).length ≤ fuel →
      unquoteLoop fuel (s.flatMap (appendEscapedRune IsPrint)) = some s := by
  induction s with
  | nil => intro fuel _; cases fuel <;> rfl
  | cons c cs ih =>
    intro fuel hlen
    rw [List.flatMap_cons] at hlen ⊢
    have hu := unquoteChar_escaped IsPrint hp c (cs.flatMap (appendEscapedRune IsPrint))
    cases he : appendEscapedRune IsPrint c with
    | nil =>
      have h0 := unquoteChar_escaped IsPrint hp c []
      rw [he] at h0
      exact absurd h0 (by simp [unquoteChar_nil])
    | cons x xs =>
      rw [he] at hu hlen
      cases fuel with
      | zero => simp at hlen
      | succ f =>
        have hf : (cs.flatMap (appendEscapedRune IsPrint)).length ≤ f := by
          simp only [List.cons_append, List.length_cons, List.length_append] at hlen
          omega
        show (match UnquoteChar (x :: (xs ++ cs.flatMap (appendEscapedRune IsPrint))) with
          | none => none
          | some (r, tail) => (unquoteLoop f tail).map (fun t => r :: t)) = some (c :: cs)
        rw [show x :: (xs ++ cs.flatMap (appendEscapedRune IsPrint)) =
          (x :: xs) ++ cs.flatMap (appendEscapedRune IsPrint) from rfl, hu]
        simp only
        rw [ih f hf]
        rfl

/-- C15: for every expected-output string, the string literal that `%q` renders is read
back, as an interpreted string literal of Go, as the same string, character for character;
this holds whatever the table of printable characters is, as long as a printable character
is not the line feed, NUL or the byte order mark. The string made of `a`, a double quote,
`b`, a line feed, `c` and a backslash is rendered with the quote, the line feed and the
backslash escaped, and is read back unchanged. -/
theorem quoted_output_round_trip (IsPrint : Char → Bool)
    (hp : ∀ c, IsPrint c = true → c ≠ linefeed ∧ c.toNat ≠ 0 ∧ c.toNat ≠ 65279)
    (e : Example) :
    Unquote (renderOutput IsPrint e) = some e.Output
      ∧ (∀ s : String, Unquote (Quote IsPrint s) = some s)
      ∧ Quote isPrintASCII (String.mk ['a', dquote, 'b', linefeed, 'c', backslash]) =
          String.mk [dquote, 'a', backslash, dquote, 'b', backslash, 'n', 'c', backslash,
            backslash, dquote]
      ∧ Unquote (String.mk [dquote, 'a', backslash, dquote, 'b', backslash, 'n', 'c', backslash,
            backslash, dquote]) =
          some (String.mk ['a', dquote, 'b', linefeed, 'c', backslash]) := by
  have hall : ∀ s : String, Unquote (Quote IsPrint s) = some s := by
    intro s
    have hne : s.toList.flatMap (appendEscapedRune IsPrint) ++ [dquote] ≠ [] := by simp
    have hlast : (s.toList.flatMap (appendEscapedRune IsPrint) ++ [dquote]).getLast? =
        some dquote := by simp
    have hdrop : (s.toList.flatMap (appendEscapedRune IsPrint) ++ [dquote]).dropLast =
        s.toList.flatMap (appendEscapedRune IsPrint) := by simp
    show (match dquote :: (s.toList.flatMap (appendEscapedRune IsPrint) ++ [dquote]) with
      | [] => none
      | q :: rest =>
        if q = dquote ∧ rest.getLast? = some dquote then
          (unquoteBody rest.dropLast).map String.mk
        else none) = some s
    simp only [hlast, hdrop, and_self, if_true]
    unfold unquoteBody
    rw [unquoteLoop_escaped IsPrint hp s.toList _ (le_refl _)]
    rfl
  exact ⟨hall e.Output, hall, by decide, by decide⟩

theorem quoted_output_round_trip_witness :
    Unquote (renderOutput isPrintASCII
        { Package := "x", Name := "ExampleHello", Output := "hello", Unordered := false }) =
        some "hello"
      ∧ (∀ s : String, Unquote (Quote isPrintASCII s) = some s)
      ∧ Quote isPrintASCII (String.mk ['a', dquote, 'b', linefeed, 'c', backslash]) =
          String.mk [dquote, 'a', backslash, dquote, 'b', backslash, 'n', 'c', backslash,
            backslash, dquote]
      ∧ Unquote (String.mk [dquote, 'a', backslash, dquote, 'b', backslash, 'n', 'c', backslash,
            backslash, dquote]) =
          some (String.mk ['a', dquote, 'b', linefeed, 'c', backslash]) :=
  quoted_output_round_trip isPrintASCII
    (by
      intro c h
      simp only [isPrintASCII, decide_eq_true_eq] at h
      refine ⟨?_, by omega, by omega⟩
      intro e
      rw [e] at h
      revert h
      decide)
    { Package := "x", Name := "ExampleHello", Output := "hello", Unordered := false }

end TestMain
